import Mathlib

/-!
Shallow embedding of the `monte_carlo` MCTS engine
(src/monte_carlo.rs, src/game.rs) and verification of its specification.

Modelling conventions:
* `f64` values are modelled as real numbers (`ℝ`); the literal `f64::MAX`
  becomes the exact real value `2^1024 - 2^971` of that float.
* `FxHashMap` is modelled as an insertion-ordered association list
  (`List (key × value)`); Rust's iteration order over a hash map is
  unspecified, the model fixes insertion order.  `max_by_key` returns the
  last maximal element (Rust semantics), modelled by a left fold keeping
  the later element on ties.
* Rust panics (`unwrap` on `None`/empty iterators) are modelled by
  returning `none`; unbounded recursion and loops take a fuel parameter
  and return `none` when fuel runs out.
* The RNG is modelled by a caller-supplied `shuf : List C → List C`
  standing for one output of `SliceRandom::shuffle`, and by the game's
  own `get_rollout_choice` field (the trait method, default random).
* `iteration` and `build_tree` additionally return the explored path
  (the chain of choices at which `record_outcome` fired below the root)
  and the final state of each iteration; this extra ghost output is used
  only to state backpropagation properties and does not influence any
  computed tree.
-/

/-- Association-list lookup, modelling `FxHashMap::get`. -/
def lookupA {C B : Type} [DecidableEq C] : List (C × B) → C → Option B
  | [], _ => none
  | p :: l, a => if a = p.1 then some p.2 else lookupA l a

/-- Association-list insert-or-replace, modelling `FxHashMap::insert`
(replacing keeps the position of the key, appending otherwise). -/
def insertA {C B : Type} [DecidableEq C] : List (C × B) → C → B → List (C × B)
  | [], a, b => [(a, b)]
  | p :: l, a, b => if a = p.1 then (a, b) :: l else p :: insertA l a b

/-- The availability-count update of `expand`:
`if let Some(count) = map.get_mut(&choice) { *count += 1 } else { map.insert(choice, 0) }`. -/
def incrA {C : Type} [DecidableEq C] : List (C × ℕ) → C → List (C × ℕ)
  | [], a => [(a, 0)]
  | p :: l, a => if a = p.1 then (p.1, p.2 + 1) :: l else p :: incrA l a

/-- The `Game` trait of src/game.rs: states `S`, choices `C`, player ids `P`.
Methods with default bodies are kept as fields; instances model one
concrete implementation (possibly using the defaults). -/
structure Game (S C P : Type) where
  get_all_choices : S → List C
  apply_choice : S → C → S
  get_active_player_id : S → P
  is_terminal : S → Bool
  reward_for : S → P → ℝ
  choice_is_available : S → C → Bool
  get_determinization : S → P → S
  get_rollout_choice : S → C
  heuristic_early_terminate : S → Bool
  shuffle_on_expand : S → Bool

/-- The statistics tree node of src/monte_carlo.rs
(`pub struct MonteCarloTreeNode<G>`). -/
inductive MonteCarloTreeNode (C P : Type) : Type
  | mk (games : ℝ) (cumulative_reward : ℝ) (player_id : P) (choice : Option C)
      (children : List (C × MonteCarloTreeNode C P))
      (choice_availability_count : List (C × ℕ)) : MonteCarloTreeNode C P

namespace MonteCarloTreeNode

variable {C P : Type}

def games : MonteCarloTreeNode C P → ℝ
  | mk g _ _ _ _ _ => g

def cumulative_reward : MonteCarloTreeNode C P → ℝ
  | mk _ r _ _ _ _ => r

def player_id : MonteCarloTreeNode C P → P
  | mk _ _ pl _ _ _ => pl

def choice : MonteCarloTreeNode C P → Option C
  | mk _ _ _ ch _ _ => ch

def children : MonteCarloTreeNode C P → List (C × MonteCarloTreeNode C P)
  | mk _ _ _ _ cs _ => cs

def choice_availability_count : MonteCarloTreeNode C P → List (C × ℕ)
  | mk _ _ _ _ _ av => av

/-- `MonteCarloTreeNode::new(owner, choice)`. -/
def new (owner : P) (choice : Option C) : MonteCarloTreeNode C P :=
  mk 0 0 owner choice [] []

/-- `MonteCarloTreeNode::is_root`. -/
def is_root (n : MonteCarloTreeNode C P) : Bool :=
  n.choice.isNone

/-- Replace the `children` field. -/
def withChildren : MonteCarloTreeNode C P → List (C × MonteCarloTreeNode C P) →
    MonteCarloTreeNode C P
  | mk g r pl ch _ av, cs => mk g r pl ch cs av

/-- Replace the `choice_availability_count` field. -/
def withAvail : MonteCarloTreeNode C P → List (C × ℕ) → MonteCarloTreeNode C P
  | mk g r pl ch cs _, av => mk g r pl ch cs av

@[simp] theorem games_mk (g r : ℝ) (pl : P) (ch : Option C) cs av :
    (mk g r pl ch cs av).games = g := rfl

@[simp] theorem cumulative_reward_mk (g r : ℝ) (pl : P) (ch : Option C) cs av :
    (mk g r pl ch cs av).cumulative_reward = r := rfl

@[simp] theorem player_id_mk (g r : ℝ) (pl : P) (ch : Option C) cs av :
    (mk g r pl ch cs av).player_id = pl := rfl

@[simp] theorem choice_mk (g r : ℝ) (pl : P) (ch : Option C) cs av :
    (mk g r pl ch cs av).choice = ch := rfl

@[simp] theorem children_mk (g r : ℝ) (pl : P) (ch : Option C) cs av :
    (mk g r pl ch cs av).children = cs := rfl

@[simp] theorem choice_availability_count_mk (g r : ℝ) (pl : P) (ch : Option C) cs av :
    (mk g r pl ch cs av).choice_availability_count = av := rfl

@[simp] theorem games_new (owner : P) (ch : Option C) : (new owner ch).games = 0 := rfl

@[simp] theorem cumulative_reward_new (owner : P) (ch : Option C) :
    (new owner ch).cumulative_reward = 0 := rfl

@[simp] theorem player_id_new (owner : P) (ch : Option C) :
    (new owner ch).player_id = owner := rfl

@[simp] theorem choice_new (owner : P) (ch : Option C) : (new owner ch).choice = ch := rfl

@[simp] theorem children_new (owner : P) (ch : Option C) : (new owner ch).children = [] := rfl

@[simp] theorem choice_availability_count_new (owner : P) (ch : Option C) :
    (new owner ch).choice_availability_count = [] := rfl

@[simp] theorem games_withChildren (n : MonteCarloTreeNode C P) cs :
    (n.withChildren cs).games = n.games := by cases n; rfl

@[simp] theorem cumulative_reward_withChildren (n : MonteCarloTreeNode C P) cs :
    (n.withChildren cs).cumulative_reward = n.cumulative_reward := by cases n; rfl

@[simp] theorem player_id_withChildren (n : MonteCarloTreeNode C P) cs :
    (n.withChildren cs).player_id = n.player_id := by cases n; rfl

@[simp] theorem choice_withChildren (n : MonteCarloTreeNode C P) cs :
    (n.withChildren cs).choice = n.choice := by cases n; rfl

@[simp] theorem children_withChildren (n : MonteCarloTreeNode C P) cs :
    (n.withChildren cs).children = cs := by cases n; rfl

@[simp] theorem choice_availability_count_withChildren (n : MonteCarloTreeNode C P) cs :
    (n.withChildren cs).choice_availability_count = n.choice_availability_count := by
  cases n; rfl

@[simp] theorem games_withAvail (n : MonteCarloTreeNode C P) av :
    (n.withAvail av).games = n.games := by cases n; rfl

@[simp] theorem cumulative_reward_withAvail (n : MonteCarloTreeNode C P) av :
    (n.withAvail av).cumulative_reward = n.cumulative_reward := by cases n; rfl

@[simp] theorem player_id_withAvail (n : MonteCarloTreeNode C P) av :
    (n.withAvail av).player_id = n.player_id := by cases n; rfl

@[simp] theorem choice_withAvail (n : MonteCarloTreeNode C P) av :
    (n.withAvail av).choice = n.choice := by cases n; rfl

@[simp] theorem children_withAvail (n : MonteCarloTreeNode C P) av :
    (n.withAvail av).children = n.children := by cases n; rfl

@[simp] theorem choice_availability_count_withAvail (n : MonteCarloTreeNode C P) av :
    (n.withAvail av).choice_availability_count = av := by cases n; rfl

@[simp] theorem is_root_mk (g r : ℝ) (pl : P) (ch : Option C) cs av :
    (mk g r pl ch cs av).is_root = ch.isNone := rfl

@[simp] theorem withChildren_mk (g r : ℝ) (pl : P) (ch : Option C) cs av cs' :
    (mk g r pl ch cs av).withChildren cs' = mk g r pl ch cs' av := rfl

@[simp] theorem withAvail_mk (g r : ℝ) (pl : P) (ch : Option C) cs av av' :
    (mk g r pl ch cs av).withAvail av' = mk g r pl ch cs av' := rfl

end MonteCarloTreeNode

/-- The exact real value of the Rust literal `f64::MAX`,
namely (2 - 2^-52) * 2^1023. -/
noncomputable def f64MAX : ℝ := 2 ^ 1024 - 2 ^ 971

/-- `pub fn upper_confidence_bound(cumulative_reward, games, total_game_count, c)`
of src/monte_carlo.rs (f64 arithmetic modelled over ℝ, `f64::ln`/`f64::sqrt`
modelled by `Real.log`/`Real.sqrt`). -/
noncomputable def upper_confidence_bound
    (cumulative_reward games total_game_count c : ℝ) : ℝ :=
  cumulative_reward / games + c * Real.sqrt (Real.log total_game_count / games)

variable {S C P : Type}

/-- Default `MonteCarloTreeSearch::get_first_play_value` (vanilla policy):
ignores all of its arguments and returns `f64::MAX`. -/
noncomputable def get_first_play_value : ℝ := f64MAX

/-- Default `MonteCarloTreeSearch::get_selection_value` (vanilla policy).
The two `unwrap`s on the child's incoming choice and on the availability
lookup are modelled by `Option`: `none` is a panic. -/
noncomputable def get_selection_value [DecidableEq C]
    (parent child : MonteCarloTreeNode C P) : Option ℝ :=
  let c : ℝ := 0.4
  let total? : Option ℝ :=
    if parent.is_root then
      -- the root is always fully expanded and its availability never shrinks
      some parent.games
    else
      match child.choice with
      | none => none
      | some a => (lookupA parent.choice_availability_count a).map (fun k => ((k : ℕ) : ℝ))
  total?.map (fun total_game_count =>
    upper_confidence_bound child.cumulative_reward child.games total_game_count c)

/-- The selection value used inside `select`'s `max_by_key`: the first-play
value for an unvisited child (`games == 0.0`), the upper-confidence value
otherwise.  The unused `choices` argument mirrors the Rust signature of
`get_first_play_value`. -/
noncomputable def selection_key [DecidableEq C] (parent child : MonteCarloTreeNode C P)
    (_choices : Option (List C)) : Option ℝ :=
  if child.games = 0 then some get_first_play_value
  else get_selection_value parent child

/-- Evaluate `f` on every element, failing if any evaluation fails
(`max_by_key` evaluates its key on every element; a panic anywhere
aborts the whole call). -/
def mapA {A B : Type} (f : A → Option B) : List A → Option (List B)
  | [] => some []
  | x :: l =>
    match f x, mapA f l with
    | some y, some ys => some (y :: ys)
    | _, _ => none

/-- Rust `Iterator::max_by_key` over `(element, key)` pairs: returns the
last maximal element, `none` on the empty list. -/
noncomputable def maxBySnd {A : Type} (l : List (A × ℝ)) : Option (A × ℝ) :=
  l.foldl
    (fun acc x =>
      match acc with
      | none => some x
      | some b => if b.2 ≤ x.2 then some x else some b)
    none

/-- `MonteCarloTreeSearch::select` (vanilla policy): among the children
whose choice is currently available, pick the one maximising the
selection key; returns the chosen key of `node.children` (the Rust code
then re-borrows the child with `get_mut(...).unwrap()`).  `none` models
the `unwrap` panic on an empty candidate set (or a panicking key). -/
noncomputable def select [DecidableEq C] (g : Game S C P) (s : S)
    (node : MonteCarloTreeNode C P) (choices : Option (List C)) : Option C :=
  match mapA (fun p => (selection_key node p.2 choices).map (fun v => (p.1, v)))
      (node.children.filter (fun p => g.choice_is_available s p.1)) with
  | none => none
  | some vals =>
    match maxBySnd vals with
    | none => none
    | some best => some best.1

/-- `MonteCarloTreeSearch::rollout` (vanilla: `intercept_rollout_choice` is
the identity and the node argument is unused).  The `while` loop takes
fuel; `none` is non-termination within the given fuel. -/
def rollout (g : Game S C P) : ℕ → S → Option S
  | 0, _ => none
  | fuel + 1, s =>
    if !g.is_terminal s && !g.heuristic_early_terminate s then
      rollout g fuel (g.apply_choice s (g.get_rollout_choice s))
    else some s

/-- `MonteCarloTreeSearch::record_outcome`: add `reward_for(node.player_id)`
to `cumulative_reward`, increment `games` by one. -/
def record_outcome (g : Game S C P) (s : S) :
    MonteCarloTreeNode C P → MonteCarloTreeNode C P
  | MonteCarloTreeNode.mk ga r pl ch cs av =>
    MonteCarloTreeNode.mk (ga + 1) (r + g.reward_for s pl) pl ch cs av

/-- The effective choice order used by `expand`: the fetched legal actions,
shuffled when the shuffle flag is on. -/
def effectiveChoices (shuf : List C → List C) (g : Game S C P) (s : S) : List C :=
  if g.shuffle_on_expand s then shuf (g.get_all_choices s) else g.get_all_choices s

/-- One step of `expand`'s `for choice in &choices` loop, acting on the
node together with the `added_new_node` flag. -/
def expandStep [DecidableEq C] (active : P) :
    MonteCarloTreeNode C P × Bool → C → MonteCarloTreeNode C P × Bool
  | (m, added), c =>
    let m := m.withAvail (incrA m.choice_availability_count c)
    if m.is_root || (!added && (lookupA m.children c).isNone) then
      (m.withChildren (insertA m.children c (MonteCarloTreeNode.new active (some c))), true)
    else (m, added)

/-- `MonteCarloTreeNode::expand`.  Returns the updated node and the choice
list handed back to `iteration` (`none` when the root is already
expanded). -/
def expand [DecidableEq C] (shuf : List C → List C) (g : Game S C P) (s : S)
    (n : MonteCarloTreeNode C P) : MonteCarloTreeNode C P × Option (List C) :=
  if n.is_root && !n.children.isEmpty then (n, none)
  else
    let active := g.get_active_player_id s
    let choices := effectiveChoices shuf g s
    ((choices.foldl (expandStep active) (n, false)).1, some choices)

/-- `MonteCarloTreeSearch::iteration` (vanilla: the `after_selection` hook
is a no-op).  Takes fuel for the recursion and the rollout loop; returns
the updated node, the final state of the iteration and — as ghost data
for the specification — the explored path: the chain of choices below
this node at which `record_outcome` fired. -/
noncomputable def iteration [DecidableEq C] (shuf : List C → List C) (g : Game S C P) :
    ℕ → MonteCarloTreeNode C P → S → Option (MonteCarloTreeNode C P × S × List C)
  | 0, _, _ => none
  | fuel + 1, node, s =>
    if g.is_terminal s then some (record_outcome g s node, s, [])
    else
      match select g s (expand shuf g s node).1 (expand shuf g s node).2 with
      | none => none
      | some c =>
        match lookupA (expand shuf g s node).1.children c with
        | none => none
        | some child =>
          if child.games = 0 then
            match rollout g fuel (g.apply_choice s c) with
            | none => none
            | some sfin =>
              some (record_outcome g sfin
                ((expand shuf g s node).1.withChildren
                  (insertA (expand shuf g s node).1.children c
                    (record_outcome g sfin child))), sfin, [c])
          else
            match iteration shuf g fuel child (g.apply_choice s c) with
            | none => none
            | some (child1, sfin, p) =>
              some (record_outcome g sfin
                ((expand shuf g s node).1.withChildren
                  (insertA (expand shuf g s node).1.children c child1)), sfin, c :: p)

/-- The `for _ in 0..iterations` loop of `build_tree` (vanilla:
`after_iteration` is a no-op), accumulating the ghost log of
(explored path, final state) pairs, one entry per iteration. -/
noncomputable def build_tree_loop [DecidableEq C] (fuel : ℕ) (shuf : List C → List C)
    (g : Game S C P) (s : S) :
    ℕ → MonteCarloTreeNode C P → List (List C × S) →
      Option (MonteCarloTreeNode C P × List (List C × S))
  | 0, node, log => some (node, log)
  | n + 1, node, log =>
    match iteration shuf g fuel node
        (g.get_determinization s (g.get_active_player_id s)) with
    | none => none
    | some (node1, sfin, p) => build_tree_loop fuel shuf g s n node1 (log ++ [(p, sfin)])

/-- `MonteCarloTreeSearch::build_tree`: fresh root owned by the state's
active player, then `iterations` rounds of `iteration` on a per-round
determinization. -/
noncomputable def build_tree [DecidableEq C] (fuel : ℕ) (shuf : List C → List C)
    (g : Game S C P) (s : S) (iterations : ℕ) :
    Option (MonteCarloTreeNode C P × List (List C × S)) :=
  build_tree_loop fuel shuf g s iterations
    (MonteCarloTreeNode.new (g.get_active_player_id s) none) []

/-- Modelled from the spec: the `MctsStats` struct of the repository's
src/stats.rs, which is not part of the provided sources.  Per the spec the
search "reports the root's own aggregate visit/reward totals", and
src/monte_carlo.rs fills the two fields `tree_cumulative_reward` and
`tree_games` with exactly those totals. -/
structure MctsStats where
  tree_cumulative_reward : ℝ
  tree_games : ℝ

/-- Rust `Iterator::max_by_key(|child| FloatOrd(child.games))` over the
root's children map values: last maximal child in iteration order. -/
noncomputable def maxByGames (l : List (C × MonteCarloTreeNode C P)) :
    Option (MonteCarloTreeNode C P) :=
  l.foldl
    (fun acc x =>
      match acc with
      | none => some x.2
      | some b => if b.games ≤ x.2.games then some x.2 else some b)
    none

/-- `MonteCarloTreeSearch::monte_carlo_tree_search`: build the tree, pick
the root child with the most games, return its incoming choice together
with the root totals.  The `rolling_stats` summary and the `println!`
reporting are side-effect-free observations and are not modelled. -/
noncomputable def monte_carlo_tree_search [DecidableEq C] (fuel : ℕ)
    (shuf : List C → List C) (g : Game S C P) (s : S) (iterations : ℕ) :
    Option (C × MctsStats) :=
  match build_tree fuel shuf g s iterations with
  | none => none
  | some (tree, _log) =>
    match maxByGames tree.children with
    | none => none
    | some selected_child =>
      match selected_child.choice with
      | none => none
      | some a => some (a, ⟨tree.cumulative_reward, tree.games⟩)

/-- The node reached from `t` by following a chain of choices. -/
def subnodeAt [DecidableEq C] : MonteCarloTreeNode C P → List C →
    Option (MonteCarloTreeNode C P)
  | n, [] => some n
  | n, c :: q =>
    match lookupA n.children c with
    | none => none
    | some m => subnodeAt m q

/-- The search completes: some fuel bound makes the whole call return. -/
noncomputable def Completes [DecidableEq C] (shuf : List C → List C) (g : Game S C P)
    (s : S) (iterations : ℕ) : Prop :=
  ∃ fuel r, monte_carlo_tree_search fuel shuf g s iterations = some r

/-! ### Association-list lemmas -/

section AssocLemmas

variable {A B : Type} [DecidableEq A]

theorem lookupA_insertA (l : List (A × B)) (a : A) (b : B) (c : A) :
    lookupA (insertA l a b) c = if c = a then some b else lookupA l c := by
  induction l with
  | nil =>
    by_cases h : c = a
    · subst h; simp [insertA, lookupA]
    · simp [insertA, lookupA, h]
  | cons p l ih =>
    obtain ⟨x, v⟩ := p
    by_cases hpa : a = x
    · subst hpa
      by_cases h : c = a
      · subst h; simp [insertA, lookupA]
      · simp [insertA, lookupA, h]
    · by_cases h : c = a
      · subst h
        simp [insertA, lookupA, hpa, ih]
      · by_cases hcx : c = x
        · subst hcx
          simp [insertA, lookupA, hpa, h, ih]
        · simp [insertA, lookupA, hpa, h, hcx, ih]

theorem insertA_of_lookupA_none (l : List (A × B)) (a : A) (b : B)
    (h : lookupA l a = none) : insertA l a b = l ++ [(a, b)] := by
  induction l with
  | nil => simp [insertA]
  | cons p l ih =>
    obtain ⟨x, v⟩ := p
    by_cases hpa : a = x
    · simp [lookupA, hpa] at h
    · simp [lookupA, hpa] at h
      simp [insertA, hpa, ih h]

theorem lookupA_append (l l' : List (A × B)) (c : A) :
    lookupA (l ++ l') c =
      (match lookupA l c with
       | some v => some v
       | none => lookupA l' c) := by
  induction l with
  | nil => simp [lookupA]
  | cons p l ih =>
    by_cases h : c = p.1 <;> simp [lookupA, h, ih]

theorem lookupA_incrA (l : List (A × ℕ)) (a c : A) :
    lookupA (incrA l a) c =
      if c = a then
        some (match lookupA l a with
              | none => 0
              | some k => k + 1)
      else lookupA l c := by
  induction l with
  | nil =>
    by_cases h : c = a
    · subst h; simp [incrA, lookupA]
    · simp [incrA, lookupA, h]
  | cons p l ih =>
    obtain ⟨x, v⟩ := p
    by_cases hpa : a = x
    · subst hpa
      by_cases h : c = a
      · subst h; simp [incrA, lookupA]
      · simp [incrA, lookupA, h]
    · by_cases h : c = a
      · subst h
        simp [incrA, lookupA, hpa, ih]
      · by_cases hcx : c = x
        · subst hcx
          simp [incrA, lookupA, hpa, h, ih]
        · simp [incrA, lookupA, hpa, h, hcx, ih]

/-- Membership with the first component determines the lookup when keys
are duplicate-free. -/
theorem lookupA_eq_of_mem_of_nodup {l : List (A × B)} {a : A} {b : B}
    (hn : (l.map Prod.fst).Nodup) (hm : (a, b) ∈ l) : lookupA l a = some b := by
  induction l with
  | nil => simp at hm
  | cons p l ih =>
    simp only [List.map_cons, List.nodup_cons] at hn
    rcases List.mem_cons.1 hm with h | h
    · subst h; simp [lookupA]
    · have hpa : ¬a = p.1 := by
        intro hh
        exact hn.1 (hh ▸ (List.mem_map.2 ⟨(a, b), h, rfl⟩))
      simp [lookupA, hpa, ih hn.2 h]

theorem mem_of_lookupA_eq_some {l : List (A × B)} {a : A} {b : B}
    (h : lookupA l a = some b) : (a, b) ∈ l := by
  induction l with
  | nil => simp [lookupA] at h
  | cons p l ih =>
    by_cases hpa : a = p.1
    · simp [lookupA, hpa] at h
      have hab : (a, b) = p := by rw [hpa, ← h]
      exact hab ▸ List.mem_cons_self _ _
    · simp [lookupA, hpa] at h
      exact List.mem_cons_of_mem _ (ih h)

end AssocLemmas

/-! ### record_outcome field lemmas -/

section RecordLemmas

variable {S C P : Type}

@[simp] theorem games_record_outcome (g : Game S C P) (s : S) (n : MonteCarloTreeNode C P) :
    (record_outcome g s n).games = n.games + 1 := by cases n; rfl

@[simp] theorem cumulative_reward_record_outcome (g : Game S C P) (s : S)
    (n : MonteCarloTreeNode C P) :
    (record_outcome g s n).cumulative_reward =
      n.cumulative_reward + g.reward_for s n.player_id := by cases n; rfl

@[simp] theorem player_id_record_outcome (g : Game S C P) (s : S)
    (n : MonteCarloTreeNode C P) :
    (record_outcome g s n).player_id = n.player_id := by cases n; rfl

@[simp] theorem choice_record_outcome (g : Game S C P) (s : S)
    (n : MonteCarloTreeNode C P) :
    (record_outcome g s n).choice = n.choice := by cases n; rfl

@[simp] theorem children_record_outcome (g : Game S C P) (s : S)
    (n : MonteCarloTreeNode C P) :
    (record_outcome g s n).children = n.children := by cases n; rfl

@[simp] theorem choice_availability_count_record_outcome (g : Game S C P) (s : S)
    (n : MonteCarloTreeNode C P) :
    (record_outcome g s n).choice_availability_count =
      n.choice_availability_count := by cases n; rfl

@[simp] theorem record_outcome_mk (g : Game S C P) (s : S) (ga r : ℝ) (pl : P)
    (ch : Option C) cs av :
    record_outcome g s (MonteCarloTreeNode.mk ga r pl ch cs av) =
      MonteCarloTreeNode.mk (ga + 1) (r + g.reward_for s pl) pl ch cs av := rfl

end RecordLemmas

/-! ### expand lemmas -/

section ExpandLemmas

variable {S C P : Type} [DecidableEq C]

@[simp] theorem expandStep_games (active : P) (m : MonteCarloTreeNode C P × Bool) (c : C) :
    (expandStep active m c).1.games = m.1.games := by
  obtain ⟨n, added⟩ := m
  simp only [expandStep]
  split <;> simp

@[simp] theorem expandStep_cumulative_reward (active : P)
    (m : MonteCarloTreeNode C P × Bool) (c : C) :
    (expandStep active m c).1.cumulative_reward = m.1.cumulative_reward := by
  obtain ⟨n, added⟩ := m
  simp only [expandStep]
  split <;> simp

@[simp] theorem expandStep_player_id (active : P)
    (m : MonteCarloTreeNode C P × Bool) (c : C) :
    (expandStep active m c).1.player_id = m.1.player_id := by
  obtain ⟨n, added⟩ := m
  simp only [expandStep]
  split <;> simp

@[simp] theorem expandStep_choice (active : P)
    (m : MonteCarloTreeNode C P × Bool) (c : C) :
    (expandStep active m c).1.choice = m.1.choice := by
  obtain ⟨n, added⟩ := m
  simp only [expandStep]
  split <;> simp

@[simp] theorem expandStep_avail (active : P)
    (m : MonteCarloTreeNode C P × Bool) (c : C) :
    (expandStep active m c).1.choice_availability_count =
      incrA m.1.choice_availability_count c := by
  obtain ⟨n, added⟩ := m
  simp only [expandStep]
  split <;> simp

theorem foldExpand_games (active : P) (cs : List C) :
    ∀ m : MonteCarloTreeNode C P × Bool,
      ((cs.foldl (expandStep active) m).1.games = m.1.games) := by
  induction cs with
  | nil => intro m; rfl
  | cons c cs ih => intro m; rw [List.foldl_cons, ih]; simp

theorem foldExpand_cumulative_reward (active : P) (cs : List C) :
    ∀ m : MonteCarloTreeNode C P × Bool,
      ((cs.foldl (expandStep active) m).1.cumulative_reward = m.1.cumulative_reward) := by
  induction cs with
  | nil => intro m; rfl
  | cons c cs ih => intro m; rw [List.foldl_cons, ih]; simp

theorem foldExpand_player_id (active : P) (cs : List C) :
    ∀ m : MonteCarloTreeNode C P × Bool,
      ((cs.foldl (expandStep active) m).1.player_id = m.1.player_id) := by
  induction cs with
  | nil => intro m; rfl
  | cons c cs ih => intro m; rw [List.foldl_cons, ih]; simp

theorem foldExpand_choice (active : P) (cs : List C) :
    ∀ m : MonteCarloTreeNode C P × Bool,
      ((cs.foldl (expandStep active) m).1.choice = m.1.choice) := by
  induction cs with
  | nil => intro m; rfl
  | cons c cs ih => intro m; rw [List.foldl_cons, ih]; simp

@[simp] theorem expand_games (shuf : List C → List C) (g : Game S C P) (s : S)
    (n : MonteCarloTreeNode C P) : (expand shuf g s n).1.games = n.games := by
  unfold expand
  split
  · rfl
  · exact foldExpand_games _ _ _

@[simp] theorem expand_cumulative_reward (shuf : List C → List C) (g : Game S C P) (s : S)
    (n : MonteCarloTreeNode C P) :
    (expand shuf g s n).1.cumulative_reward = n.cumulative_reward := by
  unfold expand
  split
  · rfl
  · exact foldExpand_cumulative_reward _ _ _

@[simp] theorem expand_player_id (shuf : List C → List C) (g : Game S C P) (s : S)
    (n : MonteCarloTreeNode C P) : (expand shuf g s n).1.player_id = n.player_id := by
  unfold expand
  split
  · rfl
  · exact foldExpand_player_id _ _ _

@[simp] theorem expand_choice (shuf : List C → List C) (g : Game S C P) (s : S)
    (n : MonteCarloTreeNode C P) : (expand shuf g s n).1.choice = n.choice := by
  unfold expand
  split
  · rfl
  · exact foldExpand_choice _ _ _

@[simp] theorem expand_is_root (shuf : List C → List C) (g : Game S C P) (s : S)
    (n : MonteCarloTreeNode C P) : (expand shuf g s n).1.is_root = n.is_root := by
  unfold MonteCarloTreeNode.is_root
  rw [expand_choice]

@[simp] theorem is_root_withAvail (n : MonteCarloTreeNode C P) (av : List (C × ℕ)) :
    (n.withAvail av).is_root = n.is_root := by
  unfold MonteCarloTreeNode.is_root
  rw [MonteCarloTreeNode.choice_withAvail]

@[simp] theorem is_root_withChildren (n : MonteCarloTreeNode C P)
    (cs : List (C × MonteCarloTreeNode C P)) :
    (n.withChildren cs).is_root = n.is_root := by
  unfold MonteCarloTreeNode.is_root
  rw [MonteCarloTreeNode.choice_withChildren]

/-- Case analysis of one `expand` loop step: either only the availability
count changes, or additionally a fresh child is inserted at the current
choice — and then the node was root or had no child there yet. -/
theorem expandStep_cases (active : P) (n : MonteCarloTreeNode C P) (added : Bool) (c' : C) :
    expandStep active (n, added) c' =
      (n.withAvail (incrA n.choice_availability_count c'), added) ∨
    ((n.is_root = true ∨ lookupA n.children c' = none) ∧
     expandStep active (n, added) c' =
       ((n.withAvail (incrA n.choice_availability_count c')).withChildren
          (insertA n.children c' (MonteCarloTreeNode.new active (some c'))), true)) := by
  simp only [expandStep]
  split
  case isTrue h =>
    right
    refine ⟨?_, by simp⟩
    simp only [is_root_withAvail, MonteCarloTreeNode.children_withAvail,
      Bool.or_eq_true, Bool.and_eq_true, Bool.not_eq_true'] at h
    rcases h with h | h
    · exact Or.inl h
    · exact Or.inr (Option.isNone_iff_eq_none.1 h.2)
  case isFalse h => left; rfl

theorem foldExpand_children_lookup (active : P) (cs : List C) :
    ∀ (m : MonteCarloTreeNode C P × Bool),
      (m.1.is_root = true → ∀ c n', lookupA m.1.children c = some n' →
        n' = MonteCarloTreeNode.new active (some c)) →
      ∀ c,
        lookupA ((cs.foldl (expandStep active) m).1).children c = lookupA m.1.children c ∨
        (lookupA m.1.children c = none ∧
         lookupA ((cs.foldl (expandStep active) m).1).children c =
           some (MonteCarloTreeNode.new active (some c))) := by
  induction cs with
  | nil => intro m _ c; left; rfl
  | cons c' cs ih =>
    intro m hJ c
    obtain ⟨n, added⟩ := m
    rw [List.foldl_cons]
    rcases expandStep_cases active n added c' with hst | ⟨hwhy, hst⟩
    · rw [hst]
      have hJ' : (n.withAvail (incrA n.choice_availability_count c')).is_root = true →
          ∀ c n', lookupA (n.withAvail (incrA n.choice_availability_count c')).children c =
            some n' → n' = MonteCarloTreeNode.new active (some c) := by
        simpa using hJ
      have := ih (n.withAvail (incrA n.choice_availability_count c'), added) hJ' c
      simpa using this
    · rw [hst]
      have hJ1 : ((n.withAvail (incrA n.choice_availability_count c')).withChildren
          (insertA n.children c' (MonteCarloTreeNode.new active (some c')))).is_root = true →
          ∀ c n', lookupA ((n.withAvail (incrA n.choice_availability_count c')).withChildren
            (insertA n.children c' (MonteCarloTreeNode.new active (some c')))).children c =
              some n' → n' = MonteCarloTreeNode.new active (some c) := by
        simp only [is_root_withChildren, is_root_withAvail,
          MonteCarloTreeNode.children_withChildren]
        intro hroot c₀ n₀ hl
        rw [lookupA_insertA] at hl
        by_cases hc0 : c₀ = c'
        · rw [if_pos hc0] at hl
          cases hl
          rw [hc0]
        · rw [if_neg hc0] at hl
          exact hJ (by simpa using hroot) c₀ n₀ hl
      have ihres := ih ((n.withAvail (incrA n.choice_availability_count c')).withChildren
        (insertA n.children c' (MonteCarloTreeNode.new active (some c'))), true) hJ1 c
      simp only [MonteCarloTreeNode.children_withChildren] at ihres
      by_cases hc : c = c'
      · subst hc
        rcases ihres with h | ⟨h1, h2⟩
        · rcases hwhy with hroot | hnone
          · cases hold : lookupA n.children c with
            | none =>
              right
              refine ⟨rfl, ?_⟩
              rw [h, lookupA_insertA, if_pos rfl]
            | some v =>
              have hv : v = MonteCarloTreeNode.new active (some c) := hJ hroot c v hold
              left
              rw [h, lookupA_insertA, if_pos rfl, hv]
          · right
            refine ⟨hnone, ?_⟩
            rw [h, lookupA_insertA, if_pos rfl]
        · exfalso
          rw [lookupA_insertA, if_pos rfl] at h1
          exact Option.some_ne_none _ h1
      · have heq : lookupA (insertA n.children c'
            (MonteCarloTreeNode.new active (some c'))) c = lookupA n.children c := by
          rw [lookupA_insertA, if_neg hc]
        rcases ihres with h | ⟨h1, h2⟩
        · left; rw [h, heq]
        · right; exact ⟨heq ▸ h1, h2⟩

/-- Lookup-level characterisation of `expand`'s effect on the children:
each key is untouched or freshly created (owned by the acting player of
the expansion state, with the key as incoming choice). -/
theorem expand_children_lookup (shuf : List C → List C) (g : Game S C P) (s : S)
    (n : MonteCarloTreeNode C P) (c : C) :
    lookupA (expand shuf g s n).1.children c = lookupA n.children c ∨
    (lookupA n.children c = none ∧
     lookupA (expand shuf g s n).1.children c =
       some (MonteCarloTreeNode.new (g.get_active_player_id s) (some c))) := by
  unfold expand
  split
  case isTrue h => left; rfl
  case isFalse h =>
    apply foldExpand_children_lookup
    intro hroot c' n' hl
    exfalso
    simp only [Bool.and_eq_true, Bool.not_eq_true', hroot, true_and,
      Bool.not_eq_false] at h
    rw [List.isEmpty_iff] at h
    rw [h] at hl
    simp [lookupA] at hl

theorem expand_children_lookup_some (shuf : List C → List C) (g : Game S C P) (s : S)
    (n : MonteCarloTreeNode C P) {c : C} {m : MonteCarloTreeNode C P}
    (h : lookupA n.children c = some m) :
    lookupA (expand shuf g s n).1.children c = some m := by
  rcases expand_children_lookup shuf g s n c with h' | ⟨h1, _⟩
  · rw [h', h]
  · rw [h1] at h; cases h

theorem expand_children_lookup_none (shuf : List C → List C) (g : Game S C P) (s : S)
    (n : MonteCarloTreeNode C P) {c : C}
    (h : lookupA (expand shuf g s n).1.children c = none) :
    lookupA n.children c = none := by
  rcases expand_children_lookup shuf g s n c with h' | ⟨h1, h2⟩
  · rw [← h', h]
  · exact h1

theorem foldExpand_children_added (active : P) (cs : List C) :
    ∀ (n : MonteCarloTreeNode C P), n.is_root = false →
      ((cs.foldl (expandStep active) (n, true)).1.children = n.children) := by
  induction cs with
  | nil => intro n _; rfl
  | cons c cs ih =>
    intro n hroot
    rw [List.foldl_cons]
    have hstep : expandStep active (n, true) c =
        (n.withAvail (incrA n.choice_availability_count c), true) := by
      simp [expandStep, hroot]
    rw [hstep, ih _ (by simp [hroot])]
    simp

theorem foldExpand_children_nonroot (active : P) (cs : List C) :
    ∀ (n : MonteCarloTreeNode C P), n.is_root = false →
      ((cs.foldl (expandStep active) (n, false)).1.children =
        match cs.find? (fun c => (lookupA n.children c).isNone) with
        | none => n.children
        | some c => n.children ++ [(c, MonteCarloTreeNode.new active (some c))]) := by
  induction cs with
  | nil => intro n _; rfl
  | cons c cs ih =>
    intro n hroot
    rw [List.foldl_cons]
    cases hl : lookupA n.children c with
    | some v =>
      have hstep : expandStep active (n, false) c =
          (n.withAvail (incrA n.choice_availability_count c), false) := by
        simp [expandStep, hroot, hl]
      rw [hstep, ih _ (by simp [hroot])]
      have hpred : (fun c => (lookupA n.children c).isNone) c = false := by simp [hl]
      rw [List.find?_cons_of_neg _ (by simp [hl])]
      simp
    | none =>
      have hstep : expandStep active (n, false) c =
          ((n.withAvail (incrA n.choice_availability_count c)).withChildren
            (insertA n.children c (MonteCarloTreeNode.new active (some c))), true) := by
        simp [expandStep, hroot, hl]
      rw [hstep, foldExpand_children_added active cs _ (by simp [hroot])]
      rw [MonteCarloTreeNode.children_withChildren, insertA_of_lookupA_none _ _ _ hl]
      rw [List.find?_cons_of_pos _ (by simp [hl])]

theorem foldExpand_children_root_lookup (active : P) (cs : List C) :
    ∀ (m : MonteCarloTreeNode C P × Bool), m.1.is_root = true → ∀ c,
      lookupA ((cs.foldl (expandStep active) m).1).children c =
        if c ∈ cs then some (MonteCarloTreeNode.new active (some c))
        else lookupA m.1.children c := by
  induction cs with
  | nil => intro m _ c; simp
  | cons c' cs ih =>
    intro m hroot c
    obtain ⟨n, added⟩ := m
    simp only at hroot
    rw [List.foldl_cons]
    have hstep : expandStep active (n, added) c' =
        ((n.withAvail (incrA n.choice_availability_count c')).withChildren
          (insertA n.children c' (MonteCarloTreeNode.new active (some c'))), true) := by
      simp [expandStep, hroot]
    rw [hstep]
    rw [ih ((n.withAvail (incrA n.choice_availability_count c')).withChildren
      (insertA n.children c' (MonteCarloTreeNode.new active (some c'))), true)
      (by simp [hroot]) c]
    by_cases hc : c = c'
    · subst hc
      simp [lookupA_insertA]
    · by_cases hcs : c ∈ cs
      · simp [hcs, hc]
      · simp [hcs, hc, lookupA_insertA]

theorem foldExpand_children_root_empty (active : P) (cs : List C) :
    cs.Nodup →
    ∀ (n : MonteCarloTreeNode C P) (added : Bool), n.is_root = true →
      (∀ c ∈ cs, lookupA n.children c = none) →
      ((cs.foldl (expandStep active) (n, added)).1.children =
        n.children ++ cs.map (fun c => (c, MonteCarloTreeNode.new active (some c)))) := by
  induction cs with
  | nil => intro _ n added _ _; simp
  | cons c cs ih =>
    intro hnd n added hroot hnone
    rw [List.foldl_cons]
    have hstep : expandStep active (n, added) c =
        ((n.withAvail (incrA n.choice_availability_count c)).withChildren
          (insertA n.children c (MonteCarloTreeNode.new active (some c))), true) := by
      simp [expandStep, hroot]
    rw [hstep]
    rw [insertA_of_lookupA_none _ _ _ (hnone c (List.mem_cons_self _ _))]
    rw [ih (List.nodup_cons.1 hnd).2 _ true (by simp [hroot]) ?_]
    · simp
    · intro c' hc'
      simp only [MonteCarloTreeNode.children_withChildren]
      rw [lookupA_append, hnone c' (List.mem_cons_of_mem _ hc')]
      have hne : ¬c' = c := by
        intro hh
        exact (List.nodup_cons.1 hnd).1 (hh ▸ hc')
      simp [lookupA, hne]

theorem foldExpand_avail (active : P) (cs : List C) :
    cs.Nodup →
    ∀ (m : MonteCarloTreeNode C P × Bool) (a : C),
      lookupA ((cs.foldl (expandStep active) m).1).choice_availability_count a =
        if a ∈ cs then
          some (match lookupA m.1.choice_availability_count a with
                | none => 0
                | some k => k + 1)
        else lookupA m.1.choice_availability_count a := by
  induction cs with
  | nil => intro _ m a; simp
  | cons c cs ih =>
    intro hnd m a
    obtain ⟨n, added⟩ := m
    rw [List.foldl_cons]
    have havail : (expandStep active (n, added) c).1.choice_availability_count =
        incrA n.choice_availability_count c := by simp
    by_cases hac : a = c
    · subst hac
      have hmem : a ∉ cs := (List.nodup_cons.1 hnd).1
      rw [ih (List.nodup_cons.1 hnd).2 _ a, if_neg hmem, havail, lookupA_incrA, if_pos rfl]
      simp
    · rw [ih (List.nodup_cons.1 hnd).2 _ a, havail, lookupA_incrA, if_neg hac]
      by_cases hmem : a ∈ cs
      · simp [hmem, hac]
      · simp [hmem, hac]

/-- `expand` on an already-expanded root is a no-op returning `None`. -/
theorem expand_noop (shuf : List C → List C) (g : Game S C P) (s : S)
    (n : MonteCarloTreeNode C P) (hroot : n.is_root = true) (hch : n.children ≠ []) :
    expand shuf g s n = (n, none) := by
  unfold expand
  rw [if_pos]
  rw [hroot, Bool.true_and, Bool.not_eq_true', List.isEmpty_eq_false]
  exact hch

/-- A non-root `expand` always returns the full effective choice list. -/
theorem expand_snd_not_root (shuf : List C → List C) (g : Game S C P) (s : S)
    (n : MonteCarloTreeNode C P) (hroot : n.is_root = false) :
    (expand shuf g s n).2 = some (effectiveChoices shuf g s) := by
  unfold expand
  rw [if_neg]
  rw [hroot, Bool.false_and]
  simp

/-- `expand` on a childless node returns the full effective choice list. -/
theorem expand_snd_empty (shuf : List C → List C) (g : Game S C P) (s : S)
    (n : MonteCarloTreeNode C P) (hch : n.children = []) :
    (expand shuf g s n).2 = some (effectiveChoices shuf g s) := by
  unfold expand
  rw [if_neg]
  rw [hch]
  simp

/-- Children of a non-root `expand`: exactly the first not-yet-materialised
action of the effective choice order is appended as a fresh child. -/
theorem expand_children_not_root (shuf : List C → List C) (g : Game S C P) (s : S)
    (n : MonteCarloTreeNode C P) (hroot : n.is_root = false) :
    (expand shuf g s n).1.children =
      match (effectiveChoices shuf g s).find?
          (fun c => (lookupA n.children c).isNone) with
      | none => n.children
      | some c => n.children ++
          [(c, MonteCarloTreeNode.new (g.get_active_player_id s) (some c))] := by
  unfold expand
  rw [if_neg (by rw [hroot, Bool.false_and]; simp)]
  exact foldExpand_children_nonroot _ _ _ hroot

/-- Children of a first root `expand`, by lookup: every effective choice
is materialised as a fresh child. -/
theorem expand_children_root_lookup (shuf : List C → List C) (g : Game S C P) (s : S)
    (n : MonteCarloTreeNode C P) (hroot : n.is_root = true) (hch : n.children = [])
    (c : C) :
    lookupA (expand shuf g s n).1.children c =
      if c ∈ effectiveChoices shuf g s then
        some (MonteCarloTreeNode.new (g.get_active_player_id s) (some c))
      else none := by
  unfold expand
  rw [if_neg (by rw [hch]; simp)]
  rw [foldExpand_children_root_lookup _ _ _ hroot c]
  simp [hch, lookupA]

/-- Children of a first root `expand`, structurally, for a duplicate-free
choice order. -/
theorem expand_children_root_empty (shuf : List C → List C) (g : Game S C P) (s : S)
    (n : MonteCarloTreeNode C P) (hroot : n.is_root = true) (hch : n.children = [])
    (hnd : (effectiveChoices shuf g s).Nodup) :
    (expand shuf g s n).1.children =
      (effectiveChoices shuf g s).map
        (fun c => (c, MonteCarloTreeNode.new (g.get_active_player_id s) (some c))) := by
  unfold expand
  rw [if_neg (by rw [hch]; simp)]
  rw [foldExpand_children_root_empty _ _ hnd _ false hroot (by simp [hch, lookupA])]
  simp [hch]

/-- Availability counts after a non-root `expand` (duplicate-free choice
order): each observed action's count is initialised to 0 or bumped by 1. -/
theorem expand_avail_not_root (shuf : List C → List C) (g : Game S C P) (s : S)
    (n : MonteCarloTreeNode C P) (hroot : n.is_root = false)
    (hnd : (effectiveChoices shuf g s).Nodup) (a : C) :
    lookupA (expand shuf g s n).1.choice_availability_count a =
      if a ∈ effectiveChoices shuf g s then
        some (match lookupA n.choice_availability_count a with
              | none => 0
              | some k => k + 1)
      else lookupA n.choice_availability_count a := by
  unfold expand
  rw [if_neg (by rw [hroot, Bool.false_and]; simp)]
  exact foldExpand_avail _ _ hnd _ a

end ExpandLemmas

/-! ### max_by_key and selection lemmas -/

section SelectLemmas

variable {S C P : Type} [DecidableEq C]

theorem maxBySnd_fold_aux {A : Type} (l : List (A × ℝ)) :
    ∀ (acc : Option (A × ℝ)) (b : A × ℝ),
      l.foldl
        (fun acc x =>
          match acc with
          | none => some x
          | some b => if b.2 ≤ x.2 then some x else some b) acc = some b →
      (acc = some b ∨ b ∈ l) ∧ (∀ x ∈ l, x.2 ≤ b.2) ∧
        (∀ a₀, acc = some a₀ → a₀.2 ≤ b.2) := by
  induction l with
  | nil =>
    intro acc b h
    refine ⟨Or.inl h, by simp, ?_⟩
    intro a₀ ha
    rw [ha] at h
    cases h
    exact le_refl _
  | cons x l ih =>
    intro acc b h
    rw [List.foldl_cons] at h
    obtain ⟨hmem, hbound, haccb⟩ := ih _ b h
    have hstep_le : ∀ a₀, acc = some a₀ → a₀.2 ≤ b.2 := by
      intro a₀ ha
      subst ha
      by_cases hle : a₀.2 ≤ x.2
      · have : (if a₀.2 ≤ x.2 then some x else some a₀) = some x := if_pos hle
        refine le_trans hle (haccb x ?_)
        simpa [this] using this ▸ rfl
      · have : (if a₀.2 ≤ x.2 then some x else some a₀) = some a₀ := if_neg hle
        exact haccb a₀ (by simpa using this)
    have hx_le : x.2 ≤ b.2 := by
      cases hacc : acc with
      | none =>
        rw [hacc] at h hmem haccb
        exact haccb x rfl
      | some a₀ =>
        rw [hacc] at h hmem haccb
        by_cases hle : a₀.2 ≤ x.2
        · exact haccb x (by simp [hle])
        · exact le_trans (le_of_not_le hle) (haccb a₀ (by simp [hle]))
    refine ⟨?_, ?_, hstep_le⟩
    · cases hacc : acc with
      | none =>
        rw [hacc] at hmem
        rcases hmem with hmem | hmem
        · cases hmem; exact Or.inr (List.mem_cons_self _ _)
        · exact Or.inr (List.mem_cons_of_mem _ hmem)
      | some a₀ =>
        rw [hacc] at hmem
        by_cases hle : a₀.2 ≤ x.2
        · simp only [if_pos hle] at hmem
          rcases hmem with hmem | hmem
          · cases hmem; exact Or.inr (List.mem_cons_self _ _)
          · exact Or.inr (List.mem_cons_of_mem _ hmem)
        · simp only [if_neg hle] at hmem
          rcases hmem with hmem | hmem
          · cases hmem; exact Or.inl rfl
          · exact Or.inr (List.mem_cons_of_mem _ hmem)
    · intro y hy
      rcases List.mem_cons.1 hy with hy | hy
      · subst hy; exact hx_le
      · exact hbound y hy

/-- `max_by_key` returns an element of the list whose key bounds every key. -/
theorem maxBySnd_spec {A : Type} {l : List (A × ℝ)} {b : A × ℝ}
    (h : maxBySnd l = some b) : b ∈ l ∧ ∀ x ∈ l, x.2 ≤ b.2 := by
  unfold maxBySnd at h
  obtain ⟨hmem, hbound, _⟩ := maxBySnd_fold_aux l none b h
  rcases hmem with hmem | hmem
  · cases hmem
  · exact ⟨hmem, hbound⟩

theorem maxBySnd_isSome {A : Type} (l : List (A × ℝ)) :
    ∀ acc : A × ℝ,
      (l.foldl
        (fun acc x =>
          match acc with
          | none => some x
          | some b => if b.2 ≤ x.2 then some x else some b) (some acc)).isSome := by
  induction l with
  | nil => intro acc; rfl
  | cons x l ih =>
    intro acc
    rw [List.foldl_cons]
    by_cases hle : acc.2 ≤ x.2 <;> simp only [if_pos, if_neg, hle] <;> simp [ih]

/-- `max_by_key` on a non-empty list returns something. -/
theorem maxBySnd_ne_none {A : Type} {l : List (A × ℝ)} (h : l ≠ []) :
    (maxBySnd l).isSome := by
  unfold maxBySnd
  cases l with
  | nil => exact absurd rfl h
  | cons x l => exact maxBySnd_isSome l x

theorem mapA_mem_right {A B : Type} (f : A → Option B) :
    ∀ (l : List A) (ys : List B), mapA f l = some ys →
      ∀ y ∈ ys, ∃ x ∈ l, f x = some y := by
  intro l
  induction l with
  | nil =>
    intro ys h y hy
    cases h
    simp at hy
  | cons x l ih =>
    intro ys h y hy
    rw [mapA] at h
    cases hfx : f x with
    | none => rw [hfx] at h; cases h
    | some y₀ =>
      rw [hfx] at h
      cases hrest : mapA f l with
      | none => rw [hrest] at h; cases h
      | some ys₀ =>
        rw [hrest] at h
        cases h
        rcases List.mem_cons.1 hy with hy | hy
        · exact ⟨x, List.mem_cons_self _ _, hy ▸ hfx⟩
        · obtain ⟨x', hx', hfx'⟩ := ih ys₀ hrest y hy
          exact ⟨x', List.mem_cons_of_mem _ hx', hfx'⟩

theorem mapA_mem_left {A B : Type} (f : A → Option B) :
    ∀ (l : List A) (ys : List B), mapA f l = some ys →
      ∀ x ∈ l, ∃ y ∈ ys, f x = some y := by
  intro l
  induction l with
  | nil =>
    intro ys h x hx
    simp at hx
  | cons x₀ l ih =>
    intro ys h x hx
    rw [mapA] at h
    cases hfx : f x₀ with
    | none => rw [hfx] at h; cases h
    | some y₀ =>
      rw [hfx] at h
      cases hrest : mapA f l with
      | none => rw [hrest] at h; cases h
      | some ys₀ =>
        rw [hrest] at h
        cases h
        rcases List.mem_cons.1 hx with hx | hx
        · exact ⟨y₀, List.mem_cons_self _ _, hx ▸ hfx⟩
        · obtain ⟨y, hy, hfy⟩ := ih ys₀ hrest x hx
          exact ⟨y, List.mem_cons_of_mem _ hy, hfy⟩

theorem mapA_isSome {A B : Type} (f : A → Option B) :
    ∀ (l : List A), (∀ x ∈ l, (f x).isSome) → (mapA f l).isSome := by
  intro l
  induction l with
  | nil => intro _; rfl
  | cons x l ih =>
    intro h
    rw [mapA]
    cases hfx : f x with
    | none =>
      have := h x (List.mem_cons_self _ _)
      rw [hfx] at this
      cases this
    | some y =>
      cases hrest : mapA f l with
      | none =>
        have := ih (fun x hx => h x (List.mem_cons_of_mem _ hx))
        rw [hrest] at this
        cases this
      | some ys => rfl

theorem mapA_length {A B : Type} (f : A → Option B) :
    ∀ (l : List A) (ys : List B), mapA f l = some ys → ys.length = l.length := by
  intro l
  induction l with
  | nil => intro ys h; cases h; rfl
  | cons x l ih =>
    intro ys h
    rw [mapA] at h
    cases hfx : f x with
    | none => rw [hfx] at h; cases h
    | some y =>
      rw [hfx] at h
      cases hrest : mapA f l with
      | none => rw [hrest] at h; cases h
      | some ys₀ =>
        rw [hrest] at h
        cases h
        simp [ih ys₀ hrest]

/-- What a successful `select` guarantees: the returned choice is an
available child whose selection key bounds the key of every available
child. -/
theorem select_spec {g : Game S C P} {s : S} {node : MonteCarloTreeNode C P}
    {choices : Option (List C)} {a : C}
    (hsel : select g s node choices = some a) :
    ∃ m v, (a, m) ∈ node.children ∧ g.choice_is_available s a = true ∧
      selection_key node m choices = some v ∧
      ∀ c' m' v', (c', m') ∈ node.children → g.choice_is_available s c' = true →
        selection_key node m' choices = some v' → v' ≤ v := by
  unfold select at hsel
  split at hsel
  next hvals => cases hsel
  next vals hvals =>
    split at hsel
    next hbest => cases hsel
    next best hbest =>
      cases hsel
      obtain ⟨hmem, hbound⟩ := maxBySnd_spec hbest
      obtain ⟨p, hp, hfp⟩ := mapA_mem_right _ _ _ hvals best hmem
      obtain ⟨hpch, hpav⟩ := List.mem_filter.1 hp
      cases hkey : selection_key node p.2 choices with
      | none => rw [hkey] at hfp; cases hfp
      | some v =>
        rw [hkey] at hfp
        cases hfp
        refine ⟨p.2, v, hpch, hpav, hkey, ?_⟩
        intro c' m' v' hmem' hav' hkey'
        have hcand : (c', m') ∈ node.children.filter
            (fun p => g.choice_is_available s p.1) :=
          List.mem_filter.2 ⟨hmem', by simpa using hav'⟩
        obtain ⟨y, hy, hfy⟩ := mapA_mem_left _ _ _ hvals (c', m') hcand
        rw [hkey'] at hfy
        cases hfy
        exact hbound _ hy

end SelectLemmas

/-! ### subnodeAt lemmas -/

section SubnodeLemmas

variable {S C P : Type} [DecidableEq C]

@[simp] theorem subnodeAt_nil (n : MonteCarloTreeNode C P) : subnodeAt n [] = some n := rfl

theorem subnodeAt_cons (n : MonteCarloTreeNode C P) (c : C) (q : List C) :
    subnodeAt n (c :: q) =
      match lookupA n.children c with
      | none => none
      | some m => subnodeAt m q := rfl

theorem subnodeAt_cons_of_some {n m : MonteCarloTreeNode C P} {c : C}
    (h : lookupA n.children c = some m) (q : List C) :
    subnodeAt n (c :: q) = subnodeAt m q := by
  rw [subnodeAt_cons, h]

theorem subnodeAt_cons_of_none {n : MonteCarloTreeNode C P} {c : C}
    (h : lookupA n.children c = none) (q : List C) :
    subnodeAt n (c :: q) = none := by
  rw [subnodeAt_cons, h]

theorem subnodeAt_eq_of_children_eq {n n' : MonteCarloTreeNode C P}
    (h : n'.children = n.children) (c : C) (q : List C) :
    subnodeAt n' (c :: q) = subnodeAt n (c :: q) := by
  rw [subnodeAt_cons, subnodeAt_cons, h]

/-- The games count of the node at a path, 0 when there is no such node. -/
def gamesAt (t : MonteCarloTreeNode C P) (q : List C) : ℝ :=
  match subnodeAt t q with
  | none => 0
  | some m => m.games

/-- The cumulative reward at a path, 0 when there is no such node. -/
def crAt (t : MonteCarloTreeNode C P) (q : List C) : ℝ :=
  match subnodeAt t q with
  | none => 0
  | some m => m.cumulative_reward

@[simp] theorem gamesAt_nil (t : MonteCarloTreeNode C P) : gamesAt t [] = t.games := rfl

@[simp] theorem crAt_nil (t : MonteCarloTreeNode C P) : crAt t [] = t.cumulative_reward := rfl

theorem gamesAt_eq_of_subnode_eq {t t' : MonteCarloTreeNode C P} {q q' : List C}
    (h : subnodeAt t q = subnodeAt t' q') : gamesAt t q = gamesAt t' q' := by
  unfold gamesAt
  rw [h]

theorem crAt_eq_of_subnode_eq {t t' : MonteCarloTreeNode C P} {q q' : List C}
    (h : subnodeAt t q = subnodeAt t' q') : crAt t q = crAt t' q' := by
  unfold crAt
  rw [h]

theorem gamesAt_of_some {t m : MonteCarloTreeNode C P} {q : List C}
    (h : subnodeAt t q = some m) : gamesAt t q = m.games := by
  unfold gamesAt
  rw [h]

theorem gamesAt_of_none {t : MonteCarloTreeNode C P} {q : List C}
    (h : subnodeAt t q = none) : gamesAt t q = 0 := by
  unfold gamesAt
  rw [h]

theorem crAt_of_some {t m : MonteCarloTreeNode C P} {q : List C}
    (h : subnodeAt t q = some m) : crAt t q = m.cumulative_reward := by
  unfold crAt
  rw [h]

theorem crAt_of_none {t : MonteCarloTreeNode C P} {q : List C}
    (h : subnodeAt t q = none) : crAt t q = 0 := by
  unfold crAt
  rw [h]

end SubnodeLemmas

/-! ### The per-iteration tree transformation -/

section IterationLemmas

variable {S C P : Type} [DecidableEq C]

theorem subnodeAt_new (owner : P) (ch : Option C) (c : C) (q : List C) :
    subnodeAt (MonteCarloTreeNode.new owner ch) (c :: q) = none := by
  rw [subnodeAt_cons]
  simp [MonteCarloTreeNode.new, lookupA]

/-- Positions that branch off the updated child are untouched by one
iteration step, except that `expand` may have materialised a fresh child
there. -/
theorem iteration_offpath (shuf : List C → List C) (g : Game S C P) (s : S)
    (node child1 : MonteCarloTreeNode C P) (sfin : S) (c c'' : C) (hne : ¬c'' = c)
    (q' : List C) :
    subnodeAt (record_outcome g sfin
        ((expand shuf g s node).1.withChildren
          (insertA (expand shuf g s node).1.children c child1))) (c'' :: q') =
      subnodeAt node (c'' :: q') ∨
    (subnodeAt node (c'' :: q') = none ∧
      ∃ m', subnodeAt (record_outcome g sfin
          ((expand shuf g s node).1.withChildren
            (insertA (expand shuf g s node).1.children c child1))) (c'' :: q') = some m' ∧
        m'.games = 0 ∧ m'.cumulative_reward = 0) := by
  have hch : (record_outcome g sfin
      ((expand shuf g s node).1.withChildren
        (insertA (expand shuf g s node).1.children c child1))).children =
      insertA (expand shuf g s node).1.children c child1 := by simp
  have hlk : lookupA (record_outcome g sfin
      ((expand shuf g s node).1.withChildren
        (insertA (expand shuf g s node).1.children c child1))).children c'' =
      lookupA (expand shuf g s node).1.children c'' := by
    rw [hch, lookupA_insertA, if_neg hne]
  rcases expand_children_lookup shuf g s node c'' with hsame | ⟨hnone, hfresh⟩
  · left
    rw [subnodeAt_cons, hlk, hsame, subnodeAt_cons]
  · have hlk' : lookupA (record_outcome g sfin
        ((expand shuf g s node).1.withChildren
          (insertA (expand shuf g s node).1.children c child1))).children c'' =
        some (MonteCarloTreeNode.new (g.get_active_player_id s) (some c'')) :=
      hlk.trans hfresh
    cases q' with
    | nil =>
      right
      refine ⟨subnodeAt_cons_of_none hnone [], ?_⟩
      refine ⟨MonteCarloTreeNode.new (g.get_active_player_id s) (some c''), ?_, by simp, by simp⟩
      rw [subnodeAt_cons_of_some hlk']
      rfl
    | cons c₃ q₃ =>
      left
      rw [subnodeAt_cons_of_some hlk', subnodeAt_new, subnodeAt_cons_of_none hnone]

/-- Effect of one `iteration` on every position of the tree: along the
explored path every node gains one visit and the final state's reward
from its own owner's perspective; everywhere else the tree is unchanged
except for freshly expanded (still unvisited) children.  Owners and
incoming choices of existing nodes never change. -/
theorem iteration_subnode (shuf : List C → List C) (g : Game S C P) :
    ∀ (fuel : ℕ) (node : MonteCarloTreeNode C P) (s : S)
      (node' : MonteCarloTreeNode C P) (sfin : S) (p : List C),
      iteration shuf g fuel node s = some (node', sfin, p) →
      ∀ q : List C,
        (q <+: p →
          ∃ m', subnodeAt node' q = some m' ∧
            m'.games = gamesAt node q + 1 ∧
            m'.cumulative_reward = crAt node q + g.reward_for sfin m'.player_id ∧
            ∀ m, subnodeAt node q = some m →
              m'.player_id = m.player_id ∧ m'.choice = m.choice) ∧
        (¬q <+: p →
          subnodeAt node' q = subnodeAt node q ∨
          (subnodeAt node q = none ∧ ∃ m', subnodeAt node' q = some m' ∧
            m'.games = 0 ∧ m'.cumulative_reward = 0)) := by
  intro fuel
  induction fuel with
  | zero =>
    intro node s node' sfin p h
    simp [iteration] at h
  | succ fuel ih =>
    intro node s node' sfin p h
    rw [iteration] at h
    split at h
    case isTrue hterm =>
      rw [Option.some.injEq, Prod.mk.injEq, Prod.mk.injEq] at h
      obtain ⟨h1, h2, h3⟩ := h
      subst h1 h2 h3
      intro q
      constructor
      · intro hpre
        have hq := List.prefix_nil.mp hpre
        subst hq
        refine ⟨record_outcome g s node, rfl, by simp, by simp, ?_⟩
        intro m hm
        rw [subnodeAt_nil, Option.some.injEq] at hm
        subst hm
        simp
      · intro hnpre
        cases q with
        | nil => exact absurd (List.nil_prefix) hnpre
        | cons c q' =>
          left
          exact subnodeAt_eq_of_children_eq (by simp) c q'
    case isFalse hterm =>
      split at h
      next hsel => cases h
      next c hsel =>
        split at h
        next hlook => cases h
        next child hlook =>
          split at h
          case isTrue hzero =>
            -- rollout branch
            split at h
            next hroll => cases h
            next sfin0 hroll =>
              rw [Option.some.injEq, Prod.mk.injEq, Prod.mk.injEq] at h
              obtain ⟨h1, h2, h3⟩ := h
              subst h1 h2 h3
              have hch : (record_outcome g sfin0
                  ((expand shuf g s node).1.withChildren
                    (insertA (expand shuf g s node).1.children c
                      (record_outcome g sfin0 child)))).children =
                  insertA (expand shuf g s node).1.children c
                    (record_outcome g sfin0 child) := by simp
              have hlkc : lookupA (record_outcome g sfin0
                  ((expand shuf g s node).1.withChildren
                    (insertA (expand shuf g s node).1.children c
                      (record_outcome g sfin0 child)))).children c =
                  some (record_outcome g sfin0 child) := by
                rw [hch, lookupA_insertA, if_pos rfl]
              intro q
              constructor
              · intro hpre
                cases q with
                | nil =>
                  refine ⟨_, subnodeAt_nil _, by simp, by simp, ?_⟩
                  intro m hm
                  rw [subnodeAt_nil, Option.some.injEq] at hm
                  subst hm
                  simp
                | cons c'' q' =>
                  obtain ⟨hc, hq'⟩ := List.cons_prefix_cons.mp hpre
                  have hq := List.prefix_nil.mp hq'
                  subst hc hq
                  refine ⟨record_outcome g sfin0 child, ?_, ?_, ?_, ?_⟩
                  · rw [subnodeAt_cons_of_some hlkc]
                    rfl
                  · rcases expand_children_lookup shuf g s node c'' with hsame | ⟨hnone, hfr⟩
                    · rw [hlook] at hsame
                      rw [gamesAt_of_some ((subnodeAt_cons_of_some hsame.symm []).trans
                        (subnodeAt_nil child))]
                      simp
                    · rw [hlook] at hfr
                      have hchild := Option.some.inj hfr
                      rw [gamesAt_of_none (subnodeAt_cons_of_none hnone [])]
                      rw [hchild]
                      simp
                  · rcases expand_children_lookup shuf g s node c'' with hsame | ⟨hnone, hfr⟩
                    · rw [hlook] at hsame
                      rw [crAt_of_some ((subnodeAt_cons_of_some hsame.symm []).trans
                        (subnodeAt_nil child))]
                      simp
                    · rw [hlook] at hfr
                      have hchild := Option.some.inj hfr
                      rw [crAt_of_none (subnodeAt_cons_of_none hnone [])]
                      rw [hchild]
                      simp
                  · intro m hm
                    rcases expand_children_lookup shuf g s node c'' with hsame | ⟨hnone, hfr⟩
                    · rw [hlook] at hsame
                      rw [(subnodeAt_cons_of_some hsame.symm []).trans (subnodeAt_nil child),
                        Option.some.injEq] at hm
                      subst hm
                      simp
                    · rw [subnodeAt_cons_of_none hnone] at hm
                      cases hm
              · intro hnpre
                cases q with
                | nil => exact absurd (List.nil_prefix) hnpre
                | cons c'' q' =>
                  by_cases hcc : c'' = c
                  · subst hcc
                    have hq' : q' ≠ [] := by
                      intro hq
                      subst hq
                      exact hnpre (List.prefix_refl _)
                    cases q' with
                    | nil => exact absurd rfl hq'
                    | cons c₃ q₃ =>
                      rw [subnodeAt_cons_of_some hlkc]
                      have hsub : subnodeAt (record_outcome g sfin0 child) (c₃ :: q₃) =
                          subnodeAt child (c₃ :: q₃) :=
                        subnodeAt_eq_of_children_eq (by simp) _ _
                      rw [hsub]
                      rcases expand_children_lookup shuf g s node c'' with hsame | ⟨hnone, hfr⟩
                      · rw [hlook] at hsame
                        left
                        rw [subnodeAt_cons_of_some hsame.symm]
                      · rw [hlook] at hfr
                        have hchild := Option.some.inj hfr
                        left
                        rw [subnodeAt_cons_of_none hnone, hchild, subnodeAt_new]
                  · exact iteration_offpath shuf g s node (record_outcome g sfin0 child)
                      sfin0 c c'' hcc q'
          case isFalse hzero =>
            -- recursion branch
            split at h
            next hrec => cases h
            next child1 sfin0 p0 hrec =>
              rw [Option.some.injEq, Prod.mk.injEq, Prod.mk.injEq] at h
              obtain ⟨h1, h2, h3⟩ := h
              subst h1 h2 h3
              have hold : lookupA node.children c = some child := by
                rcases expand_children_lookup shuf g s node c with hsame | ⟨hnone, hfr⟩
                · rw [← hsame]
                  exact hlook
                · rw [hlook] at hfr
                  have hchild := Option.some.inj hfr
                  exact absurd (by rw [hchild]; simp) hzero
              have IH := ih child (g.apply_choice s c) child1 sfin0 p0 hrec
              have hch : (record_outcome g sfin0
                  ((expand shuf g s node).1.withChildren
                    (insertA (expand shuf g s node).1.children c child1))).children =
                  insertA (expand shuf g s node).1.children c child1 := by simp
              have hlkc : lookupA (record_outcome g sfin0
                  ((expand shuf g s node).1.withChildren
                    (insertA (expand shuf g s node).1.children c child1))).children c =
                  some child1 := by
                rw [hch, lookupA_insertA, if_pos rfl]
              intro q
              constructor
              · intro hpre
                cases q with
                | nil =>
                  refine ⟨_, subnodeAt_nil _, by simp, by simp, ?_⟩
                  intro m hm
                  rw [subnodeAt_nil, Option.some.injEq] at hm
                  subst hm
                  simp
                | cons c'' q' =>
                  obtain ⟨hc, hq'⟩ := List.cons_prefix_cons.mp hpre
                  subst hc
                  obtain ⟨m', hm', hg, hcr, hstab⟩ := (IH q').1 hq'
                  refine ⟨m', ?_, ?_, ?_, ?_⟩
                  · rw [subnodeAt_cons_of_some hlkc]
                    exact hm'
                  · rw [gamesAt_eq_of_subnode_eq (subnodeAt_cons_of_some hold q')]
                    exact hg
                  · rw [crAt_eq_of_subnode_eq (subnodeAt_cons_of_some hold q')]
                    exact hcr
                  · intro m hm
                    rw [subnodeAt_cons_of_some hold] at hm
                    exact hstab m hm
              · intro hnpre
                cases q with
                | nil => exact absurd (List.nil_prefix) hnpre
                | cons c'' q' =>
                  by_cases hcc : c'' = c
                  · subst hcc
                    have hq' : ¬q' <+: p0 := by
                      intro hq
                      exact hnpre (List.cons_prefix_cons.mpr ⟨rfl, hq⟩)
                    rcases (IH q').2 hq' with hsame | ⟨hnone, m', hm', hg, hcr⟩
                    · left
                      rw [subnodeAt_cons_of_some hlkc, hsame,
                        subnodeAt_cons_of_some hold]
                    · right
                      refine ⟨by rw [subnodeAt_cons_of_some hold]; exact hnone, m', ?_, hg, hcr⟩
                      rw [subnodeAt_cons_of_some hlkc]
                      exact hm'
                  · exact iteration_offpath shuf g s node child1 sfin0 c c'' hcc q'

end IterationLemmas

/-! ### Iteration corollaries and the build_tree invariant -/

section BuildTreeLemmas

variable {S C P : Type} [DecidableEq C]

/-- One iteration adds exactly one visit and one owner-relative reward at
the node it is run on, and never touches its owner or incoming choice. -/
theorem iteration_games (shuf : List C → List C) (g : Game S C P) (fuel : ℕ)
    (node : MonteCarloTreeNode C P) (s : S) (node' : MonteCarloTreeNode C P)
    (sfin : S) (p : List C)
    (h : iteration shuf g fuel node s = some (node', sfin, p)) :
    node'.games = node.games + 1 ∧
    node'.cumulative_reward = node.cumulative_reward + g.reward_for sfin node.player_id ∧
    node'.player_id = node.player_id ∧ node'.choice = node.choice := by
  obtain ⟨m', hm', hg, hcr, hstab⟩ :=
    (iteration_subnode shuf g fuel node s node' sfin p h []).1 (List.nil_prefix)
  rw [subnodeAt_nil, Option.some.injEq] at hm'
  subst hm'
  obtain ⟨hpl, hch⟩ := hstab node (subnodeAt_nil node)
  refine ⟨by simpa using hg, ?_, hpl, hch⟩
  rw [hpl] at hcr
  simpa using hcr

/-- Existing nodes survive an iteration with owner and incoming choice
intact. -/
theorem iteration_persist (shuf : List C → List C) (g : Game S C P) (fuel : ℕ)
    (node : MonteCarloTreeNode C P) (s : S) (node' : MonteCarloTreeNode C P)
    (sfin : S) (p : List C)
    (h : iteration shuf g fuel node s = some (node', sfin, p))
    (q : List C) (m : MonteCarloTreeNode C P) (hm : subnodeAt node q = some m) :
    ∃ m', subnodeAt node' q = some m' ∧
      m'.player_id = m.player_id ∧ m'.choice = m.choice := by
  by_cases hpre : q <+: p
  · obtain ⟨m', hm', _, _, hstab⟩ :=
      (iteration_subnode shuf g fuel node s node' sfin p h q).1 hpre
    exact ⟨m', hm', hstab m hm⟩
  · rcases (iteration_subnode shuf g fuel node s node' sfin p h q).2 hpre with
      hsame | ⟨hnone, _⟩
    · exact ⟨m, hsame.trans hm, rfl, rfl⟩
    · rw [hnone] at hm; cases hm

/-- Number of logged iterations whose explored path passed through `q`. -/
def pathCount {C S : Type} [DecidableEq C] (log : List (List C × S)) (q : List C) : ℕ :=
  (log.filter (fun e => decide (q <+: e.1))).length

/-- Sum, over the logged iterations through `q`, of the final state's
reward from player `pl`'s perspective. -/
def rewardSum (g : Game S C P) (log : List (List C × S)) (q : List C) (pl : P) : ℝ :=
  ((log.filter (fun e => decide (q <+: e.1))).map (fun e => g.reward_for e.2 pl)).sum

@[simp] theorem pathCount_nil_log {C S : Type} [DecidableEq C] (q : List C) :
    pathCount ([] : List (List C × S)) q = 0 := rfl

@[simp] theorem rewardSum_nil_log (g : Game S C P) (q : List C) (pl : P) :
    rewardSum g [] q pl = 0 := rfl

theorem pathCount_append {C S : Type} [DecidableEq C] (log : List (List C × S))
    (e : List C × S) (q : List C) :
    pathCount (log ++ [e]) q = pathCount log q + (if q <+: e.1 then 1 else 0) := by
  unfold pathCount
  rw [List.filter_append]
  by_cases h : q <+: e.1 <;> simp [List.filter, h]

theorem rewardSum_append (g : Game S C P) (log : List (List C × S))
    (e : List C × S) (q : List C) (pl : P) :
    rewardSum g (log ++ [e]) q pl =
      rewardSum g log q pl + (if q <+: e.1 then g.reward_for e.2 pl else 0) := by
  unfold rewardSum
  rw [List.filter_append, List.map_append, List.sum_append]
  by_cases h : q <+: e.1 <;> simp [List.filter, h]

theorem pathCount_nil_path {C S : Type} [DecidableEq C] (log : List (List C × S)) :
    pathCount log [] = log.length := by
  unfold pathCount
  have : ∀ e : List C × S, decide (([] : List C) <+: e.1) = true := by
    intro e
    simp [List.nil_prefix]
  rw [List.filter_eq_self.mpr (fun e _ => this e)]

/-- The statistics invariant carried through the `build_tree` loop:
`games` counts the logged iterations through each node and
`cumulative_reward` sums their rewards from the node's owner's
perspective; every prefix of every logged path exists in the tree. -/
theorem build_tree_loop_subnode (fuel : ℕ) (shuf : List C → List C) (g : Game S C P)
    (s : S) :
    ∀ (n : ℕ) (node : MonteCarloTreeNode C P) (log : List (List C × S))
      (t : MonteCarloTreeNode C P) (log' : List (List C × S)),
      build_tree_loop fuel shuf g s n node log = some (t, log') →
      (∀ q m, subnodeAt node q = some m →
        m.games = pathCount log q ∧
        m.cumulative_reward = rewardSum g log q m.player_id) →
      (∀ e ∈ log, ∀ q, q <+: e.1 → (subnodeAt node q).isSome) →
      (∀ q m, subnodeAt t q = some m →
        m.games = pathCount log' q ∧
        m.cumulative_reward = rewardSum g log' q m.player_id) ∧
      (∀ e ∈ log', ∀ q, q <+: e.1 → (subnodeAt t q).isSome) := by
  intro n
  induction n with
  | zero =>
    intro node log t log' h hInv1 hInv2
    rw [build_tree_loop, Option.some.injEq, Prod.mk.injEq] at h
    obtain ⟨h1, h2⟩ := h
    subst h1 h2
    exact ⟨hInv1, hInv2⟩
  | succ n ihn =>
    intro node log t log' h hInv1 hInv2
    rw [build_tree_loop] at h
    split at h
    next hit => cases h
    next node1 sfin p hit =>
      have hfilnil : ∀ q, subnodeAt node q = none →
          log.filter (fun e => decide (q <+: e.1)) = [] := by
        intro q hq
        cases hf : log.filter (fun e => decide (q <+: e.1)) with
        | nil => rfl
        | cons e rest =>
          exfalso
          have he : e ∈ log.filter (fun e => decide (q <+: e.1)) := by
            rw [hf]; exact List.mem_cons_self _ _
          obtain ⟨hel, hed⟩ := List.mem_filter.1 he
          have := hInv2 e hel q (of_decide_eq_true hed)
          rw [hq] at this
          cases this
      refine ihn node1 (log ++ [(p, sfin)]) t log' h ?_ ?_
      · intro q m' hm'
        by_cases hpre : q <+: p
        · obtain ⟨m'', hm'', hg, hcr, hstab⟩ :=
            (iteration_subnode shuf g fuel node _ node1 sfin p hit q).1 hpre
          rw [hm''] at hm'
          cases hm'
          cases hsub : subnodeAt node q with
          | some m0 =>
            obtain ⟨hg0, hcr0⟩ := hInv1 q m0 hsub
            obtain ⟨hpl, _⟩ := hstab m0 hsub
            constructor
            · rw [hg, gamesAt_of_some hsub, hg0, pathCount_append, if_pos hpre]
              push_cast
              ring
            · rw [hcr, crAt_of_some hsub, hcr0, rewardSum_append, if_pos hpre, hpl]
          | none =>
            have hfil := hfilnil q hsub
            have hpc : pathCount log q = 0 := by
              unfold pathCount
              rw [hfil]
              rfl
            have hrs : ∀ pl, rewardSum g log q pl = 0 := by
              intro pl
              unfold rewardSum
              rw [hfil]
              rfl
            constructor
            · rw [hg, gamesAt_of_none hsub, pathCount_append, if_pos hpre, hpc]
              norm_num
            · rw [hcr, crAt_of_none hsub, rewardSum_append, if_pos hpre, hrs]
        · rcases (iteration_subnode shuf g fuel node _ node1 sfin p hit q).2 hpre with
            hsame | ⟨hnone, m'', hm'', hg, hcr⟩
          · rw [hsame] at hm'
            obtain ⟨hg0, hcr0⟩ := hInv1 q m' hm'
            constructor
            · rw [hg0, pathCount_append, if_neg hpre]
              norm_num
            · rw [hcr0, rewardSum_append, if_neg hpre]
              norm_num
          · rw [hm''] at hm'
            cases hm'
            have hfil := hfilnil q hnone
            constructor
            · rw [hg, pathCount_append, if_neg hpre]
              unfold pathCount
              rw [hfil]
              norm_num
            · rw [hcr, rewardSum_append, if_neg hpre]
              unfold rewardSum
              rw [hfil]
              norm_num
      · intro e he q hq
        rcases List.mem_append.1 he with he | he
        · have hold := hInv2 e he q hq
          rw [Option.isSome_iff_exists] at hold
          obtain ⟨m, hm⟩ := hold
          obtain ⟨m', hm', _, _⟩ :=
            iteration_persist shuf g fuel node _ node1 sfin p hit q m hm
          rw [hm']
          rfl
        · have hep : e = (p, sfin) := by simpa using he
          subst hep
          obtain ⟨m', hm', _, _, _⟩ :=
            (iteration_subnode shuf g fuel node _ node1 sfin p hit q).1 hq
          rw [hm']
          rfl

/-- Nodes persist through the `build_tree` loop with owner and incoming
choice intact. -/
theorem build_tree_loop_persist (fuel : ℕ) (shuf : List C → List C) (g : Game S C P)
    (s : S) :
    ∀ (n : ℕ) (node : MonteCarloTreeNode C P) (log : List (List C × S))
      (t : MonteCarloTreeNode C P) (log' : List (List C × S)),
      build_tree_loop fuel shuf g s n node log = some (t, log') →
      ∀ q m, subnodeAt node q = some m →
        ∃ m', subnodeAt t q = some m' ∧
          m'.player_id = m.player_id ∧ m'.choice = m.choice := by
  intro n
  induction n with
  | zero =>
    intro node log t log' h q m hm
    rw [build_tree_loop, Option.some.injEq, Prod.mk.injEq] at h
    obtain ⟨h1, h2⟩ := h
    subst h1 h2
    exact ⟨m, hm, rfl, rfl⟩
  | succ n ihn =>
    intro node log t log' h q m hm
    rw [build_tree_loop] at h
    split at h
    next hit => cases h
    next node1 sfin p hit =>
      obtain ⟨m1, hm1, hpl1, hch1⟩ :=
        iteration_persist shuf g fuel node _ node1 sfin p hit q m hm
      obtain ⟨m', hm', hpl', hch'⟩ := ihn node1 _ t log' h q m1 hm1
      exact ⟨m', hm', hpl'.trans hpl1, hch'.trans hch1⟩

/-- The loop adds exactly one log entry per iteration. -/
theorem build_tree_loop_length (fuel : ℕ) (shuf : List C → List C) (g : Game S C P)
    (s : S) :
    ∀ (n : ℕ) (node : MonteCarloTreeNode C P) (log : List (List C × S))
      (t : MonteCarloTreeNode C P) (log' : List (List C × S)),
      build_tree_loop fuel shuf g s n node log = some (t, log') →
      log'.length = log.length + n := by
  intro n
  induction n with
  | zero =>
    intro node log t log' h
    rw [build_tree_loop, Option.some.injEq, Prod.mk.injEq] at h
    obtain ⟨_, h2⟩ := h
    subst h2
    rfl
  | succ n ihn =>
    intro node log t log' h
    rw [build_tree_loop] at h
    split at h
    next hit => cases h
    next node1 sfin p hit =>
      have := ihn node1 _ t log' h
      rw [this]
      simp
      ring

end BuildTreeLemmas

/-! ### Concrete decision processes for witnesses and counterexamples -/

/-- A deterministic one-action, depth-one game: from state 0 the single
choice 0 leads to the terminal state 1 with reward 1 for everyone. -/
def gOne : Game ℕ ℕ ℕ where
  get_all_choices := fun _ => [0]
  apply_choice := fun s _ => s + 1
  get_active_player_id := fun _ => 0
  is_terminal := fun s =>
    match s with
    | 0 => false
    | _ + 1 => true
  reward_for := fun _ _ => 1
  choice_is_available := fun _ _ => true
  get_determinization := fun s _ => s
  get_rollout_choice := fun _ => 0
  heuristic_early_terminate := fun _ => false
  shuffle_on_expand := fun _ => false

/-- A deterministic two-action, depth-one game whose rewards are all
exactly `f64::MAX`. -/
noncomputable def gTie : Game ℕ ℕ ℕ where
  get_all_choices := fun _ => [0, 1]
  apply_choice := fun s _ => s + 1
  get_active_player_id := fun _ => 0
  is_terminal := fun s =>
    match s with
    | 0 => false
    | _ + 1 => true
  reward_for := fun _ _ => f64MAX
  choice_is_available := fun _ _ => true
  get_determinization := fun s _ => s
  get_rollout_choice := fun _ => 0
  heuristic_early_terminate := fun _ => false
  shuffle_on_expand := fun _ => false

/-- A deterministic one-action, depth-one game with alternating actors:
player 0 acts at state 0, player 1 would act at the terminal state 1. -/
def gAlt : Game ℕ ℕ ℕ where
  get_all_choices := fun _ => [0]
  apply_choice := fun s _ => s + 1
  get_active_player_id := fun s => s % 2
  is_terminal := fun s =>
    match s with
    | 0 => false
    | _ + 1 => true
  reward_for := fun _ _ => 0
  choice_is_available := fun _ _ => true
  get_determinization := fun s _ => s
  get_rollout_choice := fun _ => 0
  heuristic_early_terminate := fun _ => false
  shuffle_on_expand := fun _ => false

theorem gOne_run : build_tree 2 id gOne 0 1 =
    some (MonteCarloTreeNode.mk 1 1 0 none
      [(0, MonteCarloTreeNode.mk 1 1 0 (some 0) [] [])] [(0, 0)], [([0], 1)]) := by
  simp [build_tree, build_tree_loop, iteration, expand, effectiveChoices, expandStep,
    select, selection_key, get_selection_value, mapA, maxBySnd, rollout, record_outcome,
    incrA, insertA, lookupA, gOne, MonteCarloTreeNode.new, MonteCarloTreeNode.is_root]

theorem gOne_mcts : monte_carlo_tree_search 2 id gOne 0 1 =
    some (0, ⟨1, 1⟩) := by
  simp [monte_carlo_tree_search, gOne_run, maxByGames]

theorem gTie_run : build_tree 3 id gTie 0 2 =
    some (MonteCarloTreeNode.mk 2 (f64MAX + f64MAX) 0 none
      [(0, MonteCarloTreeNode.mk 0 0 0 (some 0) [] []),
       (1, MonteCarloTreeNode.mk 2 (f64MAX + f64MAX) 0 (some 1) [] [])]
      [(0, 0), (1, 0)], [([1], 1), ([1], 1)]) := by
  simp [build_tree, build_tree_loop, iteration, expand, effectiveChoices, expandStep,
    select, selection_key, get_selection_value, get_first_play_value,
    upper_confidence_bound, mapA, maxBySnd, rollout, record_outcome,
    incrA, insertA, lookupA, gTie, MonteCarloTreeNode.new, MonteCarloTreeNode.is_root]
  norm_num

theorem gAlt_run : build_tree 2 id gAlt 0 1 =
    some (MonteCarloTreeNode.mk 1 0 0 none
      [(0, MonteCarloTreeNode.mk 1 0 0 (some 0) [] [])] [(0, 0)], [([0], 1)]) := by
  simp [build_tree, build_tree_loop, iteration, expand, effectiveChoices, expandStep,
    select, selection_key, get_selection_value, mapA, maxBySnd, rollout, record_outcome,
    incrA, insertA, lookupA, gAlt, MonteCarloTreeNode.new, MonteCarloTreeNode.is_root]

/-! ### maxByGames lemmas -/

section MaxByGamesLemmas

variable {C P : Type}

theorem maxByGames_fold_aux (l : List (C × MonteCarloTreeNode C P)) :
    ∀ (acc : Option (MonteCarloTreeNode C P)) (b : MonteCarloTreeNode C P),
      l.foldl
        (fun acc x =>
          match acc with
          | none => some x.2
          | some b => if b.games ≤ x.2.games then some x.2 else some b) acc = some b →
      (acc = some b ∨ ∃ c, (c, b) ∈ l) ∧ (∀ x ∈ l, x.2.games ≤ b.games) ∧
        (∀ a₀, acc = some a₀ → a₀.games ≤ b.games) := by
  induction l with
  | nil =>
    intro acc b h
    refine ⟨Or.inl h, by simp, ?_⟩
    intro a₀ ha
    rw [ha] at h
    cases h
    exact le_refl _
  | cons x l ih =>
    intro acc b h
    rw [List.foldl_cons] at h
    obtain ⟨hmem, hbound, haccb⟩ := ih _ b h
    have hstep_le : ∀ a₀, acc = some a₀ → a₀.games ≤ b.games := by
      intro a₀ ha
      subst ha
      by_cases hle : a₀.games ≤ x.2.games
      · exact le_trans hle (haccb x.2 (by simp [hle]))
      · exact haccb a₀ (by simp [hle])
    have hx_le : x.2.games ≤ b.games := by
      cases hacc : acc with
      | none =>
        rw [hacc] at haccb
        exact haccb x.2 rfl
      | some a₀ =>
        rw [hacc] at haccb
        by_cases hle : a₀.games ≤ x.2.games
        · exact haccb x.2 (by simp [hle])
        · exact le_trans (le_of_not_le hle) (haccb a₀ (by simp [hle]))
    refine ⟨?_, ?_, hstep_le⟩
    · cases hacc : acc with
      | none =>
        rw [hacc] at hmem
        rcases hmem with hmem | ⟨c, hmem⟩
        · cases hmem
          exact Or.inr ⟨x.1, List.mem_cons_self _ _⟩
        · exact Or.inr ⟨c, List.mem_cons_of_mem _ hmem⟩
      | some a₀ =>
        rw [hacc] at hmem
        by_cases hle : a₀.games ≤ x.2.games
        · simp only [if_pos hle] at hmem
          rcases hmem with hmem | ⟨c, hmem⟩
          · cases hmem
            exact Or.inr ⟨x.1, List.mem_cons_self _ _⟩
          · exact Or.inr ⟨c, List.mem_cons_of_mem _ hmem⟩
        · simp only [if_neg hle] at hmem
          rcases hmem with hmem | ⟨c, hmem⟩
          · cases hmem
            exact Or.inl rfl
          · exact Or.inr ⟨c, List.mem_cons_of_mem _ hmem⟩
    · intro y hy
      rcases List.mem_cons.1 hy with hy | hy
      · subst hy
        exact hx_le
      · exact hbound y hy

/-- The child returned by `max_by_key(games)` is one of the children and
has at least as many games as each of them. -/
theorem maxByGames_spec {l : List (C × MonteCarloTreeNode C P)}
    {b : MonteCarloTreeNode C P} (h : maxByGames l = some b) :
    (∃ c, (c, b) ∈ l) ∧ ∀ x ∈ l, x.2.games ≤ b.games := by
  unfold maxByGames at h
  obtain ⟨hmem, hbound, _⟩ := maxByGames_fold_aux l none b h
  rcases hmem with hmem | hmem
  · cases hmem
  · exact ⟨hmem, hbound⟩

theorem maxByGames_isSome (l : List (C × MonteCarloTreeNode C P)) :
    ∀ acc : MonteCarloTreeNode C P,
      (l.foldl
        (fun acc x =>
          match acc with
          | none => some x.2
          | some b => if b.games ≤ x.2.games then some x.2 else some b) (some acc)).isSome := by
  induction l with
  | nil => intro acc; rfl
  | cons x l ih =>
    intro acc
    rw [List.foldl_cons]
    by_cases hle : acc.games ≤ x.2.games <;> simp only [if_pos, if_neg, hle] <;> simp [ih]

theorem maxByGames_ne_none {l : List (C × MonteCarloTreeNode C P)} (h : l ≠ []) :
    (maxByGames l).isSome := by
  unfold maxByGames
  cases l with
  | nil => exact absurd rfl h
  | cons x l => exact maxByGames_isSome l x.2

end MaxByGamesLemmas

/-! ### Claim theorems -/

section Claims

variable {S C P : Type} [DecidableEq C]

/-- Claim C1: whenever `monte_carlo_tree_search(state, iterations)`
completes, it returns the incoming choice of the root child with the
greatest `games` count among all root children (robust-child selection,
not highest win rate), together with the root's own cumulative reward
and games totals. -/
theorem claim1_robust_child (fuel : ℕ) (shuf : List C → List C) (g : Game S C P)
    (s : S) (n : ℕ) (a : C) (st : MctsStats)
    (h : monte_carlo_tree_search fuel shuf g s n = some (a, st)) :
    ∃ t log sel, build_tree fuel shuf g s n = some (t, log) ∧
      maxByGames t.children = some sel ∧
      sel.choice = some a ∧
      (∃ c, (c, sel) ∈ t.children) ∧
      (∀ x ∈ t.children, x.2.games ≤ sel.games) ∧
      st = ⟨t.cumulative_reward, t.games⟩ := by
  unfold monte_carlo_tree_search at h
  split at h
  next hbt => cases h
  next tree log hbt =>
    split at h
    next => cases h
    next sel hmax =>
      split at h
      next => cases h
      next a' hch =>
        rw [Option.some.injEq, Prod.mk.injEq] at h
        obtain ⟨h1, h2⟩ := h
        subst h1 h2
        obtain ⟨hmem, hbound⟩ := maxByGames_spec hmax
        exact ⟨tree, log, sel, hbt, hmax, hch, hmem, hbound, rfl⟩

theorem claim1_robust_child_witness :
    ∃ t log sel, build_tree 2 id gOne 0 1 = some (t, log) ∧
      maxByGames t.children = some sel ∧
      sel.choice = some 0 ∧
      (∃ c, (c, sel) ∈ t.children) ∧
      (∀ x ∈ t.children, x.2.games ≤ sel.games) ∧
      (⟨1, 1⟩ : MctsStats) = ⟨t.cumulative_reward, t.games⟩ :=
  claim1_robust_child 2 id gOne 0 1 0 ⟨1, 1⟩ gOne_mcts

/-- Claim C2: for a visited child the default selection value is
`cumulative_reward / games + 0.4 * sqrt (ln N / games)` where `N` is the
root's own visit count when the parent is the root, and otherwise the
parent's recorded availability count for the child's incoming choice. -/
theorem claim2_selection_value (parent child : MonteCarloTreeNode C P)
    (choices : Option (List C)) (hvisited : child.games ≠ 0) :
    (parent.is_root = true →
      selection_key parent child choices =
        some (child.cumulative_reward / child.games +
          0.4 * Real.sqrt (Real.log parent.games / child.games))) ∧
    (parent.is_root = false → ∀ (a : C) (k : ℕ),
      child.choice = some a →
      lookupA parent.choice_availability_count a = some k →
      selection_key parent child choices =
        some (child.cumulative_reward / child.games +
          0.4 * Real.sqrt (Real.log (k : ℝ) / child.games))) := by
  constructor
  · intro hroot
    simp [selection_key, hvisited, get_selection_value, hroot, upper_confidence_bound]
  · intro hroot a k hch hlk
    simp [selection_key, hvisited, get_selection_value, hroot, hch, hlk,
      upper_confidence_bound]

theorem claim2_selection_value_witness :
    ((MonteCarloTreeNode.mk 1 1 (0 : ℕ) (some (5 : ℕ)) [] []).games ≠ 0) ∧
    selection_key (MonteCarloTreeNode.mk 2 0 (0 : ℕ) none [] [])
        (MonteCarloTreeNode.mk 1 1 0 (some 5) [] []) none =
      some ((1 : ℝ) / 1 + 0.4 * Real.sqrt (Real.log 2 / 1)) ∧
    selection_key (MonteCarloTreeNode.mk 2 0 (0 : ℕ) (some 9) [] [(5, 3)])
        (MonteCarloTreeNode.mk 1 1 0 (some 5) [] []) none =
      some ((1 : ℝ) / 1 + 0.4 * Real.sqrt (Real.log ((3 : ℕ) : ℝ) / 1)) := by
  refine ⟨by norm_num, ?_, ?_⟩
  · exact (claim2_selection_value (MonteCarloTreeNode.mk 2 0 0 none [] [])
      (MonteCarloTreeNode.mk 1 1 0 (some 5) [] []) none (by norm_num)).1 rfl
  · exact (claim2_selection_value (MonteCarloTreeNode.mk 2 0 0 (some 9) [] [(5, 3)])
      (MonteCarloTreeNode.mk 1 1 0 (some 5) [] []) none (by norm_num)).2 rfl 5 3 rfl
      (by simp [lookupA])

/-- The statistics invariant holds for a fresh root and an empty log. -/
theorem root_inv1 (g : Game S C P) (pl : P) :
    ∀ (q : List C) m, subnodeAt (MonteCarloTreeNode.new pl none) q = some m →
      m.games = (pathCount ([] : List (List C × S)) q : ℝ) ∧
      m.cumulative_reward = rewardSum g [] q m.player_id := by
  intro q m hm
  cases q with
  | nil =>
    rw [subnodeAt_nil, Option.some.injEq] at hm
    subst hm
    exact ⟨by simp, by simp⟩
  | cons c q' =>
    rw [subnodeAt_new] at hm
    cases hm

/-- Claim C3: `record_outcome` adds `reward_for(node.owner)` to
`cumulative_reward` and increments `games` by exactly one; consequently,
in any completed `build_tree` run, every node's `games` equals the
number of iterations whose explored path passed through it, and its
`cumulative_reward` equals the sum of `reward_for(node.owner)` over
exactly those iterations' final states. -/
theorem claim3_backpropagation (fuel : ℕ) (shuf : List C → List C) (g : Game S C P)
    (s : S) (n : ℕ) (t : MonteCarloTreeNode C P) (log : List (List C × S))
    (h : build_tree fuel shuf g s n = some (t, log)) :
    (∀ (s' : S) (m : MonteCarloTreeNode C P),
      (record_outcome g s' m).cumulative_reward =
        m.cumulative_reward + g.reward_for s' m.player_id ∧
      (record_outcome g s' m).games = m.games + 1) ∧
    (∀ q m, subnodeAt t q = some m →
      m.games = (pathCount log q : ℝ) ∧
      m.cumulative_reward = rewardSum g log q m.player_id) := by
  refine ⟨fun s' m => ⟨by simp, by simp⟩, ?_⟩
  unfold build_tree at h
  refine (build_tree_loop_subnode fuel shuf g s n _ [] t log h (root_inv1 g _) ?_).1
  intro e he
  cases he

theorem claim3_backpropagation_witness :
    ∃ t log, build_tree 2 id gOne 0 1 = some (t, log) ∧
      ∀ q m, subnodeAt t q = some m →
        m.games = (pathCount log q : ℝ) ∧
        m.cumulative_reward = rewardSum gOne log q m.player_id :=
  ⟨_, _, gOne_run, (claim3_backpropagation 2 id gOne 0 1 _ _ gOne_run).2⟩

/-- Claim C4: root expansion materialises a child for every effective
legal action on its first call and is a `None`-returning no-op once the
root has children; non-root expansion returns the full effective choice
list and appends at most one fresh child, at the first
not-yet-materialised action in the (possibly shuffled) order. -/
theorem claim4_expand (shuf : List C → List C) (g : Game S C P) (s : S)
    (n : MonteCarloTreeNode C P) :
    (n.is_root = true → n.children ≠ [] → expand shuf g s n = (n, none)) ∧
    (n.is_root = true → n.children = [] →
      (expand shuf g s n).2 = some (effectiveChoices shuf g s) ∧
      ∀ c, lookupA (expand shuf g s n).1.children c =
        if c ∈ effectiveChoices shuf g s then
          some (MonteCarloTreeNode.new (g.get_active_player_id s) (some c))
        else none) ∧
    (n.is_root = false →
      (expand shuf g s n).2 = some (effectiveChoices shuf g s) ∧
      (expand shuf g s n).1.children =
        match (effectiveChoices shuf g s).find?
            (fun c => (lookupA n.children c).isNone) with
        | none => n.children
        | some c => n.children ++
            [(c, MonteCarloTreeNode.new (g.get_active_player_id s) (some c))]) := by
  refine ⟨expand_noop shuf g s n, ?_, ?_⟩
  · intro hr hc
    exact ⟨expand_snd_empty shuf g s n hc, expand_children_root_lookup shuf g s n hr hc⟩
  · intro hr
    exact ⟨expand_snd_not_root shuf g s n hr, expand_children_not_root shuf g s n hr⟩

theorem claim4_expand_witness :
    expand id gOne 0 (MonteCarloTreeNode.mk 1 1 0 none
        [(0, MonteCarloTreeNode.new 0 (some 0))] []) =
      (MonteCarloTreeNode.mk 1 1 0 none [(0, MonteCarloTreeNode.new 0 (some 0))] [],
        none) ∧
    (expand id gOne 0 (MonteCarloTreeNode.new (0 : ℕ) (some (7 : ℕ)))).2 = some [0] ∧
    (expand id gOne 0 (MonteCarloTreeNode.new (0 : ℕ) (some (7 : ℕ)))).1.children =
      [(0, MonteCarloTreeNode.new 0 (some 0))] := by
  refine ⟨(claim4_expand id gOne 0 _).1 rfl (by simp), ?_, ?_⟩
  · exact ((claim4_expand id gOne 0 (MonteCarloTreeNode.new 0 (some 7))).2.2 rfl).1
  · have := ((claim4_expand id gOne 0 (MonteCarloTreeNode.new 0 (some 7))).2.2 rfl).2
    simpa [effectiveChoices, gOne, lookupA] using this

/-- Claim C5 as stated is false: the very first expansion that observes
an action initialises its availability count to 0, not 1.  Here a fresh
non-root node is expanded once, the action 0 is observed legal in that
one call, yet its recorded availability count is 0. -/
theorem claim5_counterexample :
    effectiveChoices id gOne 0 = [0] ∧
    lookupA (expand id gOne 0
        (MonteCarloTreeNode.new (0 : ℕ) (some (7 : ℕ)))).1.choice_availability_count 0 =
      some 0 ∧
    (0 : ℕ) ≠ 1 := by
  refine ⟨rfl, ?_, by decide⟩
  simp [expand, effectiveChoices, expandStep, incrA, insertA, lookupA, gOne,
    MonteCarloTreeNode.new, MonteCarloTreeNode.is_root]

/-- A sequence of expansion calls at one node, modelling repeated visits. -/
def expandCalls (shuf : List C → List C) (g : Game S C P) (L : List S)
    (n : MonteCarloTreeNode C P) : MonteCarloTreeNode C P :=
  L.foldl (fun m s => (expand shuf g s m).1) n

/-- How one availability count evolves over a number of observations. -/
def afterCount : Option ℕ → ℕ → Option ℕ
  | none, 0 => none
  | none, k + 1 => some k
  | some v, k => some (v + k)

theorem expandCalls_avail (shuf : List C → List C) (g : Game S C P) :
    ∀ (L : List S) (n : MonteCarloTreeNode C P) (a : C),
      n.is_root = false →
      (∀ s ∈ L, (effectiveChoices shuf g s).Nodup) →
      lookupA (expandCalls shuf g L n).choice_availability_count a =
        afterCount (lookupA n.choice_availability_count a)
          (L.filter (fun s => decide (a ∈ effectiveChoices shuf g s))).length := by
  intro L
  induction L with
  | nil =>
    intro n a _ _
    cases h : lookupA n.choice_availability_count a <;> simp [expandCalls, afterCount, h]
  | cons s L ihL =>
    intro n a hroot hnd
    have hstep := expand_avail_not_root shuf g s n hroot (hnd s (List.mem_cons_self _ _))
    have hroot1 : (expand shuf g s n).1.is_root = false := by
      rw [expand_is_root]
      exact hroot
    have ihres := ihL (expand shuf g s n).1 a hroot1
      (fun s' hs' => hnd s' (List.mem_cons_of_mem _ hs'))
    unfold expandCalls at ihres ⊢
    rw [List.foldl_cons, ihres, hstep a]
    by_cases hmem : a ∈ effectiveChoices shuf g s
    · rw [if_pos hmem, List.filter_cons_of_pos (by simpa using hmem)]
      cases hold : lookupA n.choice_availability_count a with
      | none => simp [afterCount]
      | some v =>
        simp only [List.length_cons]
        simp [afterCount]
        ring
    · rw [if_neg hmem, List.filter_cons_of_neg (by simpa using hmem)]

/-- Claim C5, amended: for a non-root node and duplicate-free observed
action lists, `action_availability_count[a]` is absent until `a` is first
observed, and afterwards equals the number of observing expansion calls
MINUS ONE (the count is initialised to 0 at the first sighting). -/
theorem claim5_amended (shuf : List C → List C) (g : Game S C P) (L : List S)
    (n : MonteCarloTreeNode C P) (a : C)
    (hroot : n.is_root = false)
    (hnd : ∀ s ∈ L, (effectiveChoices shuf g s).Nodup)
    (hstart : lookupA n.choice_availability_count a = none) :
    lookupA (expandCalls shuf g L n).choice_availability_count a =
      match (L.filter (fun s => decide (a ∈ effectiveChoices shuf g s))).length with
      | 0 => none
      | k + 1 => some k := by
  rw [expandCalls_avail shuf g L n a hroot hnd, hstart]
  cases (L.filter (fun s => decide (a ∈ effectiveChoices shuf g s))).length <;>
    simp [afterCount]

theorem claim5_amended_witness :
    lookupA (expandCalls id gOne [0, 0]
        (MonteCarloTreeNode.new (0 : ℕ) (some (7 : ℕ)))).choice_availability_count 0 =
      some 1 := by
  have h := claim5_amended id gOne [0, 0] (MonteCarloTreeNode.new 0 (some 7)) 0 rfl
    (by intro s _; simp [effectiveChoices, gOne]) rfl
  simpa [effectiveChoices, gOne] using h

end Claims

section Claims2

variable {S C P : Type} [DecidableEq C]

/-- Claim C6 as stated is false: `f64::MAX` is a value an upper-confidence
score can reach, and then `max_by_key`'s last-maximum tie-breaking can
prefer a visited child.  Concretely: a root node with `games = 1` has an
unvisited available child 0 and a visited available child 1 with
`cumulative_reward = f64::MAX`; child 1's upper-confidence value is
`f64MAX / 1 + 0.4 * sqrt (ln 1 / 1) = f64MAX`, tying the first-play value,
and selection returns the visited child 1. -/
theorem claim6_counterexample :
    ((MonteCarloTreeNode.new (0 : ℕ) (some (0 : ℕ))).games = 0) ∧
    gOne.choice_is_available 0 0 = true ∧
    select gOne 0 (MonteCarloTreeNode.mk 1 f64MAX 0 none
      [(0, MonteCarloTreeNode.new 0 (some 0)),
       (1, MonteCarloTreeNode.mk 1 f64MAX 0 (some 1) [] [])] []) none = some 1 ∧
    lookupA (MonteCarloTreeNode.mk 1 f64MAX (0 : ℕ) none
      [(0, MonteCarloTreeNode.new 0 (some 0)),
       (1, MonteCarloTreeNode.mk 1 f64MAX 0 (some 1) [] [])] []).children 1 =
      some (MonteCarloTreeNode.mk 1 f64MAX 0 (some 1) [] []) ∧
    (MonteCarloTreeNode.mk (1 : ℝ) f64MAX (0 : ℕ) (some (1 : ℕ)) [] []).games ≠ 0 := by
  refine ⟨rfl, rfl, ?_, by simp [lookupA], by norm_num⟩
  simp [select, selection_key, get_selection_value, get_first_play_value,
    upper_confidence_bound, mapA, maxBySnd, lookupA, gOne,
    MonteCarloTreeNode.new, MonteCarloTreeNode.is_root]

/-- Claim C6, amended: provided every available visited child's selection
value is strictly below the first-play value `f64::MAX`, selection always
returns an unvisited child whenever one is available. -/
theorem claim6_amended (g : Game S C P) (s : S) (node : MonteCarloTreeNode C P)
    (choices : Option (List C))
    (hnd : (node.children.map Prod.fst).Nodup)
    (hub : ∀ c m v, (c, m) ∈ node.children → g.choice_is_available s c = true →
      m.games ≠ 0 → selection_key node m choices = some v → v < f64MAX)
    (hun : ∃ c m, (c, m) ∈ node.children ∧ g.choice_is_available s c = true ∧
      m.games = 0)
    (a : C) (hsel : select g s node choices = some a) :
    ∀ m, lookupA node.children a = some m → m.games = 0 := by
  intro m hm
  obtain ⟨msel, v, hmem, hav, hkey, hbound⟩ := select_spec hsel
  have hms : lookupA node.children a = some msel := lookupA_eq_of_mem_of_nodup hnd hmem
  rw [hms, Option.some.injEq] at hm
  subst hm
  by_contra hg
  have hlt := hub a msel v hmem hav hg hkey
  obtain ⟨c₀, m₀, hmem₀, hav₀, hg₀⟩ := hun
  have hkey₀ : selection_key node m₀ choices = some get_first_play_value := by
    simp [selection_key, hg₀]
  have hge := hbound c₀ m₀ get_first_play_value hmem₀ hav₀ hkey₀
  unfold get_first_play_value at hge
  exact absurd (lt_of_le_of_lt hge hlt) (lt_irrefl _)

theorem claim6_amended_witness :
    select gOne 0 (MonteCarloTreeNode.mk 0 0 0 none
      [(0, MonteCarloTreeNode.new 0 (some 0))] []) none = some 0 ∧
    (MonteCarloTreeNode.new (0 : ℕ) (some (0 : ℕ))).games = 0 := by
  have hsel : select gOne 0 (MonteCarloTreeNode.mk 0 0 0 none
      [(0, MonteCarloTreeNode.new 0 (some 0))] []) none = some 0 := by
    simp [select, selection_key, get_selection_value, get_first_play_value, mapA,
      maxBySnd, lookupA, gOne, MonteCarloTreeNode.new, MonteCarloTreeNode.is_root]
  refine ⟨hsel, ?_⟩
  have hub : ∀ c m v, (c, m) ∈ (MonteCarloTreeNode.mk (0 : ℝ) 0 (0 : ℕ) none
      [(0, MonteCarloTreeNode.new 0 (some 0))] []).children →
      gOne.choice_is_available 0 c = true → m.games ≠ 0 →
      selection_key (MonteCarloTreeNode.mk 0 0 0 none
        [(0, MonteCarloTreeNode.new 0 (some 0))] []) m none = some v → v < f64MAX := by
    intro c m v hmem hav hg hk
    simp only [MonteCarloTreeNode.children_mk, List.mem_singleton, Prod.mk.injEq] at hmem
    exact absurd (by rw [hmem.2]; rfl) hg
  have hun : ∃ c m, (c, m) ∈ (MonteCarloTreeNode.mk (0 : ℝ) 0 (0 : ℕ) none
      [(0, MonteCarloTreeNode.new 0 (some 0))] []).children ∧
      gOne.choice_is_available 0 c = true ∧ m.games = 0 :=
    ⟨0, MonteCarloTreeNode.new 0 (some 0), by simp, rfl, rfl⟩
  exact claim6_amended gOne 0 _ none (by simp) hub hun 0 hsel
    (MonteCarloTreeNode.new 0 (some 0)) (by simp [lookupA])

/-- Claim C7 as stated is false: with rewards equal to `f64::MAX` a
visited root child ties the first-play value and, by last-maximum
tie-breaking, is revisited while another root child is never tried.
With 2 root actions and a budget of 2 iterations, child 0 ends with
`games = 0` (the claim demands every child have `games = 1`). -/
theorem claim7_counterexample :
    effectiveChoices id gTie 0 = [0, 1] ∧
    build_tree 3 id gTie 0 2 =
      some (MonteCarloTreeNode.mk 2 (f64MAX + f64MAX) 0 none
        [(0, MonteCarloTreeNode.mk 0 0 0 (some 0) [] []),
         (1, MonteCarloTreeNode.mk 2 (f64MAX + f64MAX) 0 (some 1) [] [])]
        [(0, 0), (1, 0)], [([1], 1), ([1], 1)]) ∧
    (MonteCarloTreeNode.mk (0 : ℝ) 0 (0 : ℕ) (some (0 : ℕ)) [] []).games ≠ 1 := by
  exact ⟨rfl, gTie_run, by norm_num⟩

/-- Claim C8 as stated is false: a child node's owner is the actor of the
*parent's* state, not of the state the child is reached at.  In `gAlt`
player 0 acts at state 0 and player 1 at state 1; after one iteration the
root child at path [0] is reached at state 1 but owned by player 0. -/
theorem claim8_counterexample :
    build_tree 2 id gAlt 0 1 =
      some (MonteCarloTreeNode.mk 1 0 0 none
        [(0, MonteCarloTreeNode.mk 1 0 0 (some 0) [] [])] [(0, 0)], [([0], 1)]) ∧
    subnodeAt (MonteCarloTreeNode.mk 1 0 0 none
        [(0, MonteCarloTreeNode.mk 1 0 0 (some 0) [] [])] [(0, 0)]) [0] =
      some (MonteCarloTreeNode.mk 1 0 0 (some 0) [] []) ∧
    (MonteCarloTreeNode.mk (1 : ℝ) 0 (0 : ℕ) (some (0 : ℕ)) [] []).player_id = 0 ∧
    gAlt.get_active_player_id (gAlt.apply_choice 0 0) = 1 ∧
    (0 : ℕ) ≠ 1 := by
  refine ⟨gAlt_run, ?_, rfl, rfl, by decide⟩
  rw [subnodeAt_cons]
  simp [lookupA]

/-- Claim C8, amended: the root is owned by the initial state's active
actor; `expand` creates every new child owned by the actor of the state
being expanded (the actor who chooses the child's incoming action, not
the actor at the reached state); and neither owners nor incoming choices
of existing nodes ever change during an iteration. -/
theorem claim8_amended (fuel : ℕ) (shuf : List C → List C) (g : Game S C P) (s : S) :
    (∀ (n : ℕ) (t : MonteCarloTreeNode C P) (log : List (List C × S)),
      build_tree fuel shuf g s n = some (t, log) →
      t.player_id = g.get_active_player_id s ∧ t.choice = none) ∧
    (∀ (n : MonteCarloTreeNode C P) (c : C),
      lookupA (expand shuf g s n).1.children c = lookupA n.children c ∨
      (lookupA n.children c = none ∧
        lookupA (expand shuf g s n).1.children c =
          some (MonteCarloTreeNode.new (g.get_active_player_id s) (some c)))) ∧
    (∀ (node : MonteCarloTreeNode C P) (s' : S) (node' : MonteCarloTreeNode C P)
      (sfin : S) (p : List C),
      iteration shuf g fuel node s' = some (node', sfin, p) →
      ∀ q m, subnodeAt node q = some m →
        ∃ m', subnodeAt node' q = some m' ∧
          m'.player_id = m.player_id ∧ m'.choice = m.choice) := by
  refine ⟨?_, expand_children_lookup shuf g s, iteration_persist shuf g fuel⟩
  intro n t log h
  unfold build_tree at h
  obtain ⟨m', hm', hpl, hch⟩ := build_tree_loop_persist fuel shuf g s n
    (MonteCarloTreeNode.new (g.get_active_player_id s) none) [] t log h []
    (MonteCarloTreeNode.new (g.get_active_player_id s) none) (subnodeAt_nil _)
  rw [subnodeAt_nil, Option.some.injEq] at hm'
  subst hm'
  exact ⟨hpl, hch⟩

theorem claim8_amended_witness :
    (MonteCarloTreeNode.mk (1 : ℝ) 1 (0 : ℕ) none
      [((0 : ℕ), MonteCarloTreeNode.mk 1 1 0 (some 0) [] [])]
      [(0, 0)]).player_id = gOne.get_active_player_id 0 ∧
    (MonteCarloTreeNode.mk (1 : ℝ) 1 (0 : ℕ) none
      [((0 : ℕ), MonteCarloTreeNode.mk 1 1 0 (some 0) [] [])]
      [(0, 0)]).choice = none :=
  (claim8_amended 2 id gOne 0).1 1 _ _ gOne_run

/-- Claim C10: every completed `build_tree(state, n)` run records an
outcome at the root exactly once per iteration: the root's `games` equals
`n` and the ghost log has one entry per iteration. -/
theorem claim10_root_visits (fuel : ℕ) (shuf : List C → List C) (g : Game S C P)
    (s : S) (n : ℕ) (t : MonteCarloTreeNode C P) (log : List (List C × S))
    (h : build_tree fuel shuf g s n = some (t, log)) :
    t.games = (n : ℝ) ∧ log.length = n := by
  unfold build_tree at h
  have hlen := build_tree_loop_length fuel shuf g s n _ [] t log h
  have hsub := build_tree_loop_subnode fuel shuf g s n _ [] t log h (root_inv1 g _)
    (by intro e he; cases he)
  obtain ⟨hg, _⟩ := hsub.1 [] t (subnodeAt_nil t)
  simp only [List.length_nil, Nat.zero_add] at hlen
  constructor
  · rw [hg, pathCount_nil_path, hlen]
  · exact hlen

theorem claim10_root_visits_witness :
    (MonteCarloTreeNode.mk (1 : ℝ) 1 (0 : ℕ) none
      [((0 : ℕ), MonteCarloTreeNode.mk 1 1 0 (some 0) [] [])] [(0, 0)]).games =
      ((1 : ℕ) : ℝ) ∧
    ([([(0 : ℕ)], (1 : ℕ))]).length = 1 :=
  claim10_root_visits 2 id gOne 0 1 _ _ gOne_run

end Claims2

/-! ### Well-formedness invariant for completion -/

section Completion

variable {S C P : Type} [DecidableEq C]

theorem lookupA_isSome_of_mem {A B : Type} [DecidableEq A] {l : List (A × B)}
    {a : A} {b : B} (h : (a, b) ∈ l) : (lookupA l a).isSome := by
  induction l with
  | nil => cases h
  | cons p l ih =>
    by_cases hpa : a = p.1
    · simp [lookupA, hpa]
    · rcases List.mem_cons.1 h with h' | h'
      · cases h'
        exact absurd rfl hpa
      · simp only [lookupA, if_neg hpa]
        exact ih h'

theorem mem_insertA {A B : Type} [DecidableEq A] {l : List (A × B)} {a : A} {b : B}
    {x : A × B} (h : x ∈ insertA l a b) : x = (a, b) ∨ x ∈ l := by
  induction l with
  | nil => simpa [insertA] using h
  | cons p l ih =>
    by_cases hpa : a = p.1
    · simp only [insertA, if_pos hpa] at h
      rcases List.mem_cons.1 h with h' | h'
      · exact Or.inl h'
      · exact Or.inr (List.mem_cons_of_mem _ h')
    · simp only [insertA, if_neg hpa] at h
      rcases List.mem_cons.1 h with h' | h'
      · exact Or.inr (h' ▸ List.mem_cons_self _ _)
      · rcases ih h' with h'' | h''
        · exact Or.inl h''
        · exact Or.inr (List.mem_cons_of_mem _ h'')

theorem insertA_ne_nil {A B : Type} [DecidableEq A] (l : List (A × B)) (a : A) (b : B) :
    insertA l a b ≠ [] := by
  cases l with
  | nil => simp [insertA]
  | cons p l =>
    by_cases hpa : a = p.1 <;> simp [insertA, hpa]

theorem foldExpand_children_mem (active : P) (cs : List C) :
    ∀ (m : MonteCarloTreeNode C P × Bool) (x : C × MonteCarloTreeNode C P),
      x ∈ (cs.foldl (expandStep active) m).1.children →
      x ∈ m.1.children ∨
        ∃ c ∈ cs, x = (c, MonteCarloTreeNode.new active (some c)) := by
  induction cs with
  | nil => intro m x h; exact Or.inl h
  | cons c' cs ih =>
    intro m x h
    obtain ⟨n, added⟩ := m
    rw [List.foldl_cons] at h
    rcases expandStep_cases active n added c' with hst | ⟨_, hst⟩
    · rw [hst] at h
      rcases ih _ x h with h' | ⟨c, hc, hx⟩
      · rw [MonteCarloTreeNode.children_withAvail] at h'
        exact Or.inl h'
      · exact Or.inr ⟨c, List.mem_cons_of_mem _ hc, hx⟩
    · rw [hst] at h
      rcases ih _ x h with h' | ⟨c, hc, hx⟩
      · rw [MonteCarloTreeNode.children_withChildren] at h'
        rcases mem_insertA h' with h'' | h''
        · exact Or.inr ⟨c', List.mem_cons_self _ _, h''⟩
        · exact Or.inl h''
      · exact Or.inr ⟨c, List.mem_cons_of_mem _ hc, hx⟩

theorem foldExpand_avail_isSome_mono (active : P) (cs : List C) :
    ∀ (m : MonteCarloTreeNode C P × Bool) (a : C),
      (lookupA m.1.choice_availability_count a).isSome →
      (lookupA ((cs.foldl (expandStep active) m).1).choice_availability_count a).isSome := by
  induction cs with
  | nil => intro m a h; exact h
  | cons c' cs ih =>
    intro m a h
    rw [List.foldl_cons]
    refine ih _ a ?_
    rw [expandStep_avail, lookupA_incrA]
    by_cases hac : a = c'
    · rw [if_pos hac]
      rfl
    · rw [if_neg hac]
      exact h

theorem foldExpand_avail_isSome_of_mem (active : P) (cs : List C) :
    ∀ (m : MonteCarloTreeNode C P × Bool) (a : C), a ∈ cs →
      (lookupA ((cs.foldl (expandStep active) m).1).choice_availability_count a).isSome := by
  induction cs with
  | nil => intro m a h; cases h
  | cons c' cs ih =>
    intro m a h
    rw [List.foldl_cons]
    rcases List.mem_cons.1 h with h' | h'
    · refine foldExpand_avail_isSome_mono active cs _ a ?_
      rw [expandStep_avail, lookupA_incrA, if_pos h']
      rfl
    · exact ih _ a h'

/-- Well-formedness of a (sub)tree: every child's incoming choice is its
key, every non-root node has an availability record for each child key,
recursively. -/
inductive NodeInv : MonteCarloTreeNode C P → Prop
  | intro (n : MonteCarloTreeNode C P)
      (hchoice : ∀ c m, (c, m) ∈ n.children → m.choice = some c)
      (havail : n.is_root = false → ∀ c m, (c, m) ∈ n.children →
        (lookupA n.choice_availability_count c).isSome = true)
      (hrec : ∀ c m, (c, m) ∈ n.children → NodeInv m) : NodeInv n

theorem NodeInv.hchoice {n : MonteCarloTreeNode C P} (h : NodeInv n) :
    ∀ c m, (c, m) ∈ n.children → m.choice = some c := by
  cases h with
  | intro n hchoice havail hrec => exact hchoice

theorem NodeInv.havail {n : MonteCarloTreeNode C P} (h : NodeInv n) :
    n.is_root = false → ∀ c m, (c, m) ∈ n.children →
      (lookupA n.choice_availability_count c).isSome = true := by
  cases h with
  | intro n hchoice havail hrec => exact havail

theorem NodeInv.hrec {n : MonteCarloTreeNode C P} (h : NodeInv n) :
    ∀ c m, (c, m) ∈ n.children → NodeInv m := by
  cases h with
  | intro n hchoice havail hrec => exact hrec

theorem NodeInv_new (pl : P) (ch : Option C) : NodeInv (MonteCarloTreeNode.new pl ch) := by
  refine NodeInv.intro _ ?_ ?_ ?_
  · intro c m h
    cases h
  · intro _ c m h
    cases h
  · intro c m h
    cases h

theorem NodeInv_record (g : Game S C P) (s : S) {n : MonteCarloTreeNode C P}
    (h : NodeInv n) : NodeInv (record_outcome g s n) := by
  refine NodeInv.intro _ ?_ ?_ ?_
  · rw [children_record_outcome]
    exact h.hchoice
  · rw [children_record_outcome, choice_availability_count_record_outcome]
    intro hroot
    refine h.havail ?_
    unfold MonteCarloTreeNode.is_root at hroot ⊢
    rw [choice_record_outcome] at hroot
    exact hroot
  · rw [children_record_outcome]
    exact h.hrec

theorem NodeInv_expand (shuf : List C → List C) (g : Game S C P) (s : S)
    {n : MonteCarloTreeNode C P} (h : NodeInv n) : NodeInv (expand shuf g s n).1 := by
  unfold expand
  split
  case isTrue => exact h
  case isFalse hguard =>
    refine NodeInv.intro _ ?_ ?_ ?_
    · intro c m hmem
      rcases foldExpand_children_mem _ _ _ _ hmem with h' | ⟨c', _, hx⟩
      · exact h.hchoice c m h'
      · rw [Prod.mk.injEq] at hx
        rw [hx.2, hx.1]
        rfl
    · intro hroot c m hmem
      have hroot' : ((effectiveChoices shuf g s).foldl
          (expandStep (g.get_active_player_id s)) (n, false)).1.is_root = n.is_root := by
        unfold MonteCarloTreeNode.is_root
        rw [foldExpand_choice]
      rcases foldExpand_children_mem _ _ _ _ hmem with h' | ⟨c', hc', hx⟩
      · refine foldExpand_avail_isSome_mono _ _ _ c ?_
        exact h.havail (by rw [← hroot', hroot]) c m h'
      · rw [Prod.mk.injEq] at hx
        rw [hx.1]
        exact foldExpand_avail_isSome_of_mem _ _ _ c' hc'
    · intro c m hmem
      rcases foldExpand_children_mem _ _ _ _ hmem with h' | ⟨c', _, hx⟩
      · exact h.hrec c m h'
      · rw [Prod.mk.injEq] at hx
        rw [hx.2]
        exact NodeInv_new _ _
    
theorem NodeInv_insert (g : Game S C P) {n child1 : MonteCarloTreeNode C P} {c : C}
    (h : NodeInv n) (hc1 : child1.choice = some c) (hinv1 : NodeInv child1)
    (hmem0 : (lookupA n.children c).isSome) :
    NodeInv (n.withChildren (insertA n.children c child1)) := by
  refine NodeInv.intro _ ?_ ?_ ?_
  · rw [MonteCarloTreeNode.children_withChildren]
    intro c' m hmem
    rcases mem_insertA hmem with h' | h'
    · rw [Prod.mk.injEq] at h'
      rw [h'.2, h'.1]
      exact hc1
    · exact h.hchoice c' m h'
  · rw [MonteCarloTreeNode.children_withChildren,
      MonteCarloTreeNode.choice_availability_count_withChildren]
    intro hroot c' m hmem
    have hroot' : n.is_root = false := by
      unfold MonteCarloTreeNode.is_root at hroot ⊢
      rw [MonteCarloTreeNode.choice_withChildren] at hroot
      exact hroot
    rcases mem_insertA hmem with h' | h'
    · rw [Prod.mk.injEq] at h'
      rw [h'.1]
      rw [Option.isSome_iff_exists] at hmem0
      obtain ⟨child0, hchild0⟩ := hmem0
      exact h.havail hroot' c child0 (mem_of_lookupA_eq_some hchild0)
    · exact h.havail hroot' c' m h'
  · rw [MonteCarloTreeNode.children_withChildren]
    intro c' m hmem
    rcases mem_insertA hmem with h' | h'
    · rw [Prod.mk.injEq] at h'
      rw [h'.2]
      exact hinv1
    · exact h.hrec c' m h'

/-- With every action available and a well-formed node the selection step
cannot fail once the node has children. -/
theorem select_succeeds (g : Game S C P) (s : S) (node : MonteCarloTreeNode C P)
    (choices : Option (List C))
    (hav : ∀ c, g.choice_is_available s c = true)
    (hinv : NodeInv node) (hne : node.children ≠ []) :
    ∃ c child, select g s node choices = some c ∧ lookupA node.children c = some child := by
  have hfil : node.children.filter (fun p => g.choice_is_available s p.1) = node.children :=
    List.filter_eq_self.mpr (fun p _ => by rw [hav p.1])
  have hkey : ∀ p ∈ node.children, (selection_key node p.2 choices).isSome := by
    intro p hp
    unfold selection_key
    by_cases hg : p.2.games = 0
    · rw [if_pos hg]
      rfl
    · rw [if_neg hg]
      simp only [get_selection_value]
      cases hroot : node.is_root with
      | true => simp
      | false =>
        have hch := hinv.hchoice p.1 p.2 (by simpa using hp)
        have hv := hinv.havail hroot p.1 p.2 (by simpa using hp)
        rw [Option.isSome_iff_exists] at hv
        obtain ⟨k, hk⟩ := hv
        simp [hch, hk]
  have hvals : (mapA (fun p => (selection_key node p.2 choices).map (fun v => (p.1, v)))
      node.children).isSome := by
    refine mapA_isSome _ _ ?_
    intro p hp
    obtain ⟨v, hv⟩ := Option.isSome_iff_exists.1 (hkey p hp)
    simp [hv]
  rw [Option.isSome_iff_exists] at hvals
  obtain ⟨vals, hvals⟩ := hvals
  have hlen := mapA_length _ _ _ hvals
  have hvne : vals ≠ [] := by
    intro hnil
    rw [hnil] at hlen
    exact hne (List.length_eq_zero.1 hlen.symm)
  have hbest := maxBySnd_ne_none hvne
  rw [Option.isSome_iff_exists] at hbest
  obtain ⟨best, hbest⟩ := hbest
  have hselEq : select g s node choices = some best.1 := by
    unfold select
    rw [hfil]
    simp only [hvals, hbest]
  obtain ⟨msel, v, hmem, _, _, _⟩ := select_spec hselEq
  have hsome := lookupA_isSome_of_mem hmem
  rw [Option.isSome_iff_exists] at hsome
  obtain ⟨child, hchild⟩ := hsome
  exact ⟨best.1, child, hselEq, hchild⟩

theorem expand_children_ne_nil (shuf : List C → List C) (g : Game S C P) (s : S)
    (n : MonteCarloTreeNode C P) (hne : effectiveChoices shuf g s ≠ []) :
    (expand shuf g s n).1.children ≠ [] := by
  obtain ⟨c, hc⟩ := List.exists_mem_of_ne_nil _ hne
  by_cases hroot : n.is_root = true
  · by_cases hch : n.children = []
    · have hl := expand_children_root_lookup shuf g s n hroot hch c
      rw [if_pos hc] at hl
      intro hfalse
      rw [hfalse] at hl
      simp [lookupA] at hl
    · rw [expand_noop shuf g s n hroot hch]
      exact hch
  · intro hfalse
    have hstruct := expand_children_not_root shuf g s n (by simpa using hroot)
    rw [hfalse] at hstruct
    cases hf : (effectiveChoices shuf g s).find? (fun c => (lookupA n.children c).isNone) with
    | none =>
      rw [hf] at hstruct
      have hch : n.children = [] := hstruct.symm
      have hno := List.find?_eq_none.1 hf c hc
      rw [hch] at hno
      exact hno (by simp [lookupA])
    | some c' =>
      rw [hf] at hstruct
      simp at hstruct

theorem rollout_succeeds (g : Game S C P) (μ : S → ℕ)
    (hμ : ∀ s' c, g.is_terminal s' = false → μ (g.apply_choice s' c) < μ s') :
    ∀ (fuel : ℕ) (s' : S), μ s' < fuel → ∃ sfin, rollout g fuel s' = some sfin := by
  intro fuel
  induction fuel with
  | zero => intro s' h; cases h
  | succ fuel ih =>
    intro s' h
    rw [rollout]
    by_cases hcond : (!g.is_terminal s' && !g.heuristic_early_terminate s') = true
    · rw [if_pos hcond]
      have hterm : g.is_terminal s' = false := by
        rw [Bool.and_eq_true, Bool.not_eq_true', Bool.not_eq_true'] at hcond
        exact hcond.1
      refine ih (g.apply_choice s' (g.get_rollout_choice s')) ?_
      have := hμ s' (g.get_rollout_choice s') hterm
      omega
    · rw [if_neg hcond]
      exact ⟨s', rfl⟩

/-- With a well-formed node, default availability, at least one effective
action at every non-terminal state and a strictly decreasing depth
measure, one iteration always completes, preserves well-formedness, and
leaves the node with children when the state was non-terminal. -/
theorem iteration_succeeds (shuf : List C → List C) (g : Game S C P) (μ : S → ℕ)
    (h1 : ∀ s', g.is_terminal s' = false → effectiveChoices shuf g s' ≠ [])
    (hav : ∀ s' c, g.choice_is_available s' c = true)
    (hμ : ∀ s' c, g.is_terminal s' = false → μ (g.apply_choice s' c) < μ s') :
    ∀ (fuel : ℕ) (s' : S) (node : MonteCarloTreeNode C P), μ s' < fuel → NodeInv node →
      ∃ node' sfin p, iteration shuf g fuel node s' = some (node', sfin, p) ∧
        NodeInv node' ∧ (g.is_terminal s' = false → node'.children ≠ []) := by
  intro fuel
  induction fuel with
  | zero => intro s' node h; cases h
  | succ fuel ih =>
    intro s' node hfuel hinv
    cases hterm : g.is_terminal s' with
    | true =>
      refine ⟨record_outcome g s' node, s', [], ?_, NodeInv_record g s' hinv, ?_⟩
      · rw [iteration, hterm]
        simp
      · intro hfalse
        cases hfalse
    | false =>
      have hinv1 := NodeInv_expand shuf g s' hinv
      have hne1 := expand_children_ne_nil shuf g s' node (h1 s' hterm)
      obtain ⟨c, child, hsel, hlook⟩ := select_succeeds g s' (expand shuf g s' node).1
        (expand shuf g s' node).2 (hav s') hinv1 hne1
      have hchildinv : NodeInv child := hinv1.hrec c child (mem_of_lookupA_eq_some hlook)
      have hchildchoice : child.choice = some c :=
        hinv1.hchoice c child (mem_of_lookupA_eq_some hlook)
      have hμ1 : μ (g.apply_choice s' c) < fuel := by
        have := hμ s' c hterm
        omega
      by_cases hg : child.games = 0
      · obtain ⟨sfin, hroll⟩ := rollout_succeeds g μ hμ fuel (g.apply_choice s' c) hμ1
        refine ⟨record_outcome g sfin
          ((expand shuf g s' node).1.withChildren
            (insertA (expand shuf g s' node).1.children c
              (record_outcome g sfin child))), sfin, [c], ?_, ?_, ?_⟩
        · rw [iteration, hterm]
          simp only [Bool.false_eq_true, if_false, hsel, hlook, if_pos hg, hroll]
        · refine NodeInv_record g sfin (NodeInv_insert g hinv1 ?_ ?_ ?_)
          · rw [choice_record_outcome]
            exact hchildchoice
          · exact NodeInv_record g sfin hchildinv
          · rw [hlook]
            rfl
        · intro _
          rw [children_record_outcome, MonteCarloTreeNode.children_withChildren]
          exact insertA_ne_nil _ _ _
      · obtain ⟨child1, sfin, p, hrec', hinvc1, _⟩ :=
          ih (g.apply_choice s' c) child hμ1 hchildinv
        refine ⟨record_outcome g sfin
          ((expand shuf g s' node).1.withChildren
            (insertA (expand shuf g s' node).1.children c child1)), sfin, c :: p, ?_, ?_, ?_⟩
        · rw [iteration, hterm]
          simp only [Bool.false_eq_true, if_false, hsel, hlook, if_neg hg, hrec']
        · refine NodeInv_record g sfin (NodeInv_insert g hinv1 ?_ hinvc1 ?_)
          · rw [(iteration_games shuf g fuel child _ child1 sfin p hrec').2.2.2]
            exact hchildchoice
          · rw [hlook]
            rfl
        · intro _
          rw [children_record_outcome, MonteCarloTreeNode.children_withChildren]
          exact insertA_ne_nil _ _ _

theorem build_tree_loop_succeeds (fuel : ℕ) (shuf : List C → List C) (g : Game S C P)
    (s : S) (μ : S → ℕ)
    (h1 : ∀ s', g.is_terminal s' = false → effectiveChoices shuf g s' ≠ [])
    (hav : ∀ s' c, g.choice_is_available s' c = true)
    (hμ : ∀ s' c, g.is_terminal s' = false → μ (g.apply_choice s' c) < μ s')
    (hdet : g.get_determinization s (g.get_active_player_id s) = s)
    (hterm : g.is_terminal s = false)
    (hfuel : μ s < fuel) :
    ∀ (n : ℕ) (node : MonteCarloTreeNode C P) (log : List (List C × S)),
      NodeInv node →
      ∃ t log', build_tree_loop fuel shuf g s n node log = some (t, log') ∧ NodeInv t ∧
        ((1 ≤ n ∨ node.children ≠ []) → t.children ≠ []) := by
  intro n
  induction n with
  | zero =>
    intro node log hinv
    refine ⟨node, log, rfl, hinv, ?_⟩
    intro h
    rcases h with h | h
    · cases h
    · exact h
  | succ n ihn =>
    intro node log hinv
    obtain ⟨node1, sfin, p, hit, hinv1, hne1⟩ :=
      iteration_succeeds shuf g μ h1 hav hμ fuel s node hfuel hinv
    obtain ⟨t, log', hloop, hinvt, hch⟩ := ihn node1 (log ++ [(p, sfin)]) hinv1
    refine ⟨t, log', ?_, hinvt, ?_⟩
    · rw [build_tree_loop, hdet]
      simp only [hit, hloop]
    · intro _
      exact hch (Or.inr (hne1 hterm))

/-- Claim C9, amended: the search aborts only on degenerate inputs.  With
the default availability and determinization, at least one effective
action at every non-terminal state, a strictly decreasing depth measure
(bounded playouts), a non-terminal initial state and at least one
iteration, `monte_carlo_tree_search` completes and returns an action. -/
theorem claim9_amended (shuf : List C → List C) (g : Game S C P) (s : S) (n : ℕ)
    (μ : S → ℕ)
    (h1 : ∀ s', g.is_terminal s' = false → effectiveChoices shuf g s' ≠ [])
    (hav : ∀ s' c, g.choice_is_available s' c = true)
    (hdet : g.get_determinization s (g.get_active_player_id s) = s)
    (hμ : ∀ s' c, g.is_terminal s' = false → μ (g.apply_choice s' c) < μ s')
    (hn : 1 ≤ n) (hterm : g.is_terminal s = false) :
    Completes shuf g s n := by
  obtain ⟨t, log', hloop, hinvt, hch⟩ :=
    build_tree_loop_succeeds (μ s + 1) shuf g s μ h1 hav hμ hdet hterm (by omega) n
      (MonteCarloTreeNode.new (g.get_active_player_id s) none) [] (NodeInv_new _ _)
  have hchildren : t.children ≠ [] := hch (Or.inl hn)
  have hmax := maxByGames_ne_none hchildren
  rw [Option.isSome_iff_exists] at hmax
  obtain ⟨sel, hmax⟩ := hmax
  obtain ⟨⟨c, hcmem⟩, _⟩ := maxByGames_spec hmax
  have hselchoice : sel.choice = some c := hinvt.hchoice c sel hcmem
  refine ⟨μ s + 1, (c, ⟨t.cumulative_reward, t.games⟩), ?_⟩
  unfold monte_carlo_tree_search build_tree
  simp only [hloop, hmax, hselchoice]

/-- Claim C9 as stated is false: with the well-formed game `gOne` (every
non-terminal state has a legal action) and an iteration budget of zero,
the root never gets children and the final `max_by_key(...).unwrap()`
aborts, for every fuel bound. -/
theorem claim9_counterexample :
    (∀ s' : ℕ, gOne.is_terminal s' = false → gOne.get_all_choices s' ≠ []) ∧
    ¬Completes id gOne 0 0 := by
  refine ⟨fun s' _ => by simp [gOne], ?_⟩
  rintro ⟨fuel, r, h⟩
  simp [monte_carlo_tree_search, build_tree, build_tree_loop, maxByGames] at h

theorem claim9_amended_witness : Completes id gOne 0 1 := by
  refine claim9_amended id gOne 0 1 (fun s' => 1 - s') ?_ ?_ rfl ?_ (by norm_num) rfl
  · intro s' _
    simp [effectiveChoices, gOne]
  · intro s' c
    rfl
  · intro s' c hterm
    cases s' with
    | zero => simp [gOne]
    | succ k => cases hterm

end Completion

/-! ### Exhaustive-before-repeat under bounded selection values -/

section ExhaustiveClaims

variable {S C P : Type} [DecidableEq C]

theorem insertA_map_fst_of_isSome {A B : Type} [DecidableEq A] (l : List (A × B))
    (a : A) (b : B) (h : (lookupA l a).isSome) :
    (insertA l a b).map Prod.fst = l.map Prod.fst := by
  induction l with
  | nil => simp [lookupA] at h
  | cons p l ih =>
    by_cases hpa : a = p.1
    · simp [insertA, hpa]
    · simp only [lookupA, if_neg hpa] at h
      simp [insertA, hpa, ih h]

theorem mem_insertA_nodup {A B : Type} [DecidableEq A] {l : List (A × B)} {a : A}
    {b : B} {x : A × B} (hnd : (l.map Prod.fst).Nodup) (h : x ∈ insertA l a b) :
    x = (a, b) ∨ (x ∈ l ∧ ¬x.1 = a) := by
  induction l with
  | nil =>
    simp only [insertA, List.mem_singleton] at h
    exact Or.inl h
  | cons p l ih =>
    simp only [List.map_cons, List.nodup_cons] at hnd
    by_cases hpa : a = p.1
    · simp only [insertA, if_pos hpa] at h
      rcases List.mem_cons.1 h with h' | h'
      · exact Or.inl h'
      · refine Or.inr ⟨List.mem_cons_of_mem _ h', ?_⟩
        intro hx
        have hmx : x.1 ∈ l.map Prod.fst := List.mem_map.2 ⟨x, h', rfl⟩
        rw [hx, hpa] at hmx
        exact hnd.1 hmx
    · simp only [insertA, if_neg hpa] at h
      rcases List.mem_cons.1 h with h' | h'
      · subst h'
        refine Or.inr ⟨List.mem_cons_self _ _, ?_⟩
        intro hx
        exact hpa hx.symm
      · rcases ih hnd.2 h' with h'' | ⟨h1, h2⟩
        · exact Or.inl h''
        · exact Or.inr ⟨List.mem_cons_of_mem _ h1, h2⟩

theorem c7_value_bound (x : ℝ) (k d : ℕ) (hd : d < k)
    (hx : x + 0.4 * Real.sqrt (Real.log ((k - 1 : ℕ) : ℝ)) < f64MAX) :
    x / 1 + 0.4 * Real.sqrt (Real.log ((d : ℕ) : ℝ) / 1) < f64MAX := by
  rw [div_one, div_one]
  refine lt_of_le_of_lt ?_ hx
  have hsq : Real.sqrt (Real.log ((d : ℕ) : ℝ)) ≤
      Real.sqrt (Real.log ((k - 1 : ℕ) : ℝ)) := by
    cases d with
    | zero =>
      simp only [Nat.cast_zero, Real.log_zero, Real.sqrt_zero]
      exact Real.sqrt_nonneg _
    | succ d' =>
      refine Real.sqrt_le_sqrt ?_
      refine Real.log_le_log (by positivity) ?_
      exact_mod_cast (by omega : d' + 1 ≤ k - 1)
  have := mul_le_mul_of_nonneg_left hsq (by norm_num : (0 : ℝ) ≤ 0.4)
  linarith

/-- Invariant of the exhaustive-before-repeat argument: the root carries
the full action set `L` as children, one logged entry per performed
iteration, pairwise distinct singleton paths, and each child is either
still untouched or carries exactly the statistics of its unique logged
iteration. -/
def C7Inv (g : Game S C P) (L : List C) (node : MonteCarloTreeNode C P)
    (entries : List (List C × S)) : Prop :=
  node.choice = none ∧
  node.games = (entries.length : ℝ) ∧
  node.children.map Prod.fst = L ∧
  (entries.map (fun e => e.1)).Nodup ∧
  (∀ e ∈ entries, ∃ c, c ∈ L ∧ e.1 = [c]) ∧
  ∀ c m, (c, m) ∈ node.children → m.choice = some c ∧
    ((∀ e ∈ entries, e.1 ≠ [c]) → m.games = 0 ∧ m.cumulative_reward = 0) ∧
    (∀ e ∈ entries, e.1 = [c] → m.games = 1 ∧
      m.cumulative_reward = g.reward_for e.2 m.player_id)

/-- While fewer iterations than actions have run, some action is still
unexplored. -/
theorem c7_unused_exists {g : Game S C P} {L : List C}
    {node : MonteCarloTreeNode C P} {entries : List (List C × S)}
    (hndL : L.Nodup)
    (hinv : C7Inv g L node entries) (hlen : entries.length < L.length) :
    ∃ c, c ∈ L ∧ ∀ e ∈ entries, e.1 ≠ [c] := by
  obtain ⟨-, -, -, hnd, hshape, -⟩ := hinv
  by_contra hno
  push_neg at hno
  have hsub : L.map (fun c => [c]) ⊆ entries.map (fun e => e.1) := by
    intro x hx
    obtain ⟨c, hc, rfl⟩ := List.mem_map.1 hx
    obtain ⟨e, he, hee⟩ := hno c hc
    exact List.mem_map.2 ⟨e, he, hee⟩
  have hndL' : (L.map (fun c => [c])).Nodup := by
    refine hndL.map ?_
    intro a b hab
    injection hab
  have hle := (hndL'.subperm hsub).length_le
  rw [List.length_map, List.length_map] at hle
  omega

/-- After as many iterations as actions, every action has been explored. -/
theorem c7_all_used {g : Game S C P} {L : List C} {node : MonteCarloTreeNode C P}
    {entries : List (List C × S)} (hndL : L.Nodup)
    (hinv : C7Inv g L node entries) (hlen : entries.length = L.length) :
    ∀ c ∈ L, ∃ e ∈ entries, e.1 = [c] := by
  obtain ⟨-, -, -, hnd, hshape, -⟩ := hinv
  intro c₀ hc₀
  by_contra hno
  push_neg at hno
  have hsub : entries.map (fun e => e.1) ⊆ (L.erase c₀).map (fun c => [c]) := by
    intro x hx
    obtain ⟨e, he, rfl⟩ := List.mem_map.1 hx
    obtain ⟨c, hc, hee⟩ := hshape e he
    have hne : c ≠ c₀ := by
      intro h
      exact hno e he (by rw [hee, h])
    exact List.mem_map.2 ⟨c, (List.mem_erase_of_ne hne).2 hc, hee.symm⟩
  have hle := (hnd.subperm hsub).length_le
  rw [List.length_map, List.length_map] at hle
  have herase : (L.erase c₀).length = L.length - 1 := List.length_erase_of_mem hc₀
  have hpos : 0 < L.length := List.length_pos.mpr (List.ne_nil_of_mem hc₀)
  omega

/-- Under bounded selection values and with at least one action still
unexplored, a successful selection returns an unexplored child. -/
theorem c7_select_unused {g : Game S C P} {L : List C}
    {node_exp : MonteCarloTreeNode C P} {entries : List (List C × S)}
    {chs : Option (List C)} {s₀ : S} {c : C} {child : MonteCarloTreeNode C P}
    (hndL : L.Nodup)
    (hav : ∀ c, g.choice_is_available s₀ c = true)
    (hrew : ∀ (s' : S) (p' : P), g.reward_for s' p' +
      0.4 * Real.sqrt (Real.log ((L.length - 1 : ℕ) : ℝ)) < f64MAX)
    (hinv : C7Inv g L node_exp entries)
    (hlen : entries.length < L.length)
    (hsel : select g s₀ node_exp chs = some c)
    (hlook : lookupA node_exp.children c = some child) :
    child.games = 0 ∧ child.cumulative_reward = 0 ∧ c ∈ L ∧
      ∀ e ∈ entries, e.1 ≠ [c] := by
  obtain ⟨hch0, hg0, hmap, hnd, hshape, hcl⟩ := hinv
  have hkeysnd : (node_exp.children.map Prod.fst).Nodup := by
    rw [hmap]
    exact hndL
  obtain ⟨msel, v, hmem, hav', hkey, hbound⟩ := select_spec hsel
  have hlk2 : lookupA node_exp.children c = some msel :=
    lookupA_eq_of_mem_of_nodup hkeysnd hmem
  rw [hlook, Option.some.injEq] at hlk2
  subst hlk2
  obtain ⟨c₀, hc₀L, hc₀un⟩ :=
    c7_unused_exists hndL ⟨hch0, hg0, hmap, hnd, hshape, hcl⟩ hlen
  have hc₀pair : ∃ m₀, (c₀, m₀) ∈ node_exp.children := by
    have hm : c₀ ∈ node_exp.children.map Prod.fst := by
      rw [hmap]
      exact hc₀L
    obtain ⟨p, hp, hfst⟩ := List.mem_map.1 hm
    refine ⟨p.2, ?_⟩
    have hpair : (c₀, p.2) = p := by rw [← hfst]
    rw [hpair]
    exact hp
  obtain ⟨m₀, hm₀⟩ := hc₀pair
  have hm₀stats := (hcl c₀ m₀ hm₀).2.1 hc₀un
  have hm₀key : selection_key node_exp m₀ chs = some f64MAX := by
    unfold selection_key
    rw [if_pos hm₀stats.1]
    rfl
  have hMAXle : f64MAX ≤ v := hbound c₀ m₀ f64MAX hm₀ (hav c₀) hm₀key
  have hroot : node_exp.is_root = true := by
    unfold MonteCarloTreeNode.is_root
    rw [hch0]
    rfl
  by_cases hgc : child.games = 0
  · have hun : ∀ e ∈ entries, e.1 ≠ [c] := by
      intro e he hee
      have h1 := ((hcl c child (mem_of_lookupA_eq_some hlook)).2.2 e he hee).1
      rw [hgc] at h1
      exact absurd h1 (by norm_num)
    have hcr : child.cumulative_reward = 0 :=
      ((hcl c child (mem_of_lookupA_eq_some hlook)).2.1 hun).2
    have hcL : c ∈ L := by
      rw [← hmap]
      exact List.mem_map.2 ⟨(c, child), mem_of_lookupA_eq_some hlook, rfl⟩
    exact ⟨hgc, hcr, hcL, hun⟩
  · exfalso
    have hused : ∃ e ∈ entries, e.1 = [c] := by
      by_contra hn
      push_neg at hn
      exact hgc ((hcl c child (mem_of_lookupA_eq_some hlook)).2.1 hn).1
    obtain ⟨e, he, hee⟩ := hused
    obtain ⟨hg1, hcr1⟩ := (hcl c child (mem_of_lookupA_eq_some hlook)).2.2 e he hee
    have hkey' : selection_key node_exp child chs =
        some (child.cumulative_reward / child.games +
          0.4 * Real.sqrt (Real.log node_exp.games / child.games)) := by
      unfold selection_key
      rw [if_neg hgc]
      simp [get_selection_value, hroot, upper_confidence_bound]
    rw [hkey', Option.some.injEq] at hkey
    rw [hg1, hcr1, hg0] at hkey
    have hb := c7_value_bound (g.reward_for e.2 child.player_id) L.length entries.length
      hlen (hrew e.2 child.player_id)
    rw [← hkey] at hMAXle
    linarith

/-- One exhausting-phase iteration: it explores a fresh action and
extends the invariant by one logged entry. -/
theorem c7_rebuild {g : Game S C P} {L : List C}
    {node_exp child : MonteCarloTreeNode C P} {entries : List (List C × S)} {c : C}
    (sfin : S) (hndL : L.Nodup)
    (hinv : C7Inv g L node_exp entries)
    (hlook : lookupA node_exp.children c = some child)
    (hg0 : child.games = 0) (hcr0 : child.cumulative_reward = 0)
    (hun : ∀ e ∈ entries, e.1 ≠ [c]) :
    C7Inv g L (record_outcome g sfin (node_exp.withChildren
      (insertA node_exp.children c (record_outcome g sfin child))))
      (entries ++ [([c], sfin)]) := by
  obtain ⟨hch0, hgms, hmap, hnd, hshape, hcl⟩ := hinv
  have hcmem := mem_of_lookupA_eq_some hlook
  have hcL : c ∈ L := by
    rw [← hmap]
    exact List.mem_map.2 ⟨(c, child), hcmem, rfl⟩
  have hkeysnd : (node_exp.children.map Prod.fst).Nodup := by
    rw [hmap]
    exact hndL
  refine ⟨by simp [hch0], ?_, ?_, ?_, ?_, ?_⟩
  · simp only [games_record_outcome, MonteCarloTreeNode.games_withChildren, hgms,
      List.length_append, List.length_singleton]
    push_cast
    ring
  · simp only [children_record_outcome, MonteCarloTreeNode.children_withChildren]
    rw [insertA_map_fst_of_isSome _ _ _ (by rw [hlook]; rfl)]
    exact hmap
  · rw [List.map_append]
    refine hnd.append (by simp) ?_
    intro x hx1 hx2
    simp only [List.map_cons, List.map_nil, List.mem_singleton] at hx2
    obtain ⟨e, he, rfl⟩ := List.mem_map.1 hx1
    exact hun e he (by rw [hx2])
  · intro e he
    rcases List.mem_append.1 he with he | he
    · exact hshape e he
    · have heq : e = ([c], sfin) := by simpa using he
      rw [heq]
      exact ⟨c, hcL, rfl⟩
  · intro c' m hmem
    simp only [children_record_outcome, MonteCarloTreeNode.children_withChildren] at hmem
    rcases mem_insertA_nodup hkeysnd hmem with hx | ⟨hx, hne⟩
    · rw [Prod.mk.injEq] at hx
      obtain ⟨hc', hm⟩ := hx
      subst hc'
      subst hm
      refine ⟨?_, ?_, ?_⟩
      · rw [choice_record_outcome]
        exact (hcl c' child hcmem).1
      · intro hpre
        exact absurd rfl (hpre ([c'], sfin) (by simp))
      · intro e he hee
        rcases List.mem_append.1 he with he | he
        · exact absurd hee (hun e he)
        · have heq : e = ([c'], sfin) := by simpa using he
          subst heq
          constructor
          · rw [games_record_outcome, hg0]
            norm_num
          · rw [cumulative_reward_record_outcome, hcr0, player_id_record_outcome, zero_add]
    · obtain ⟨h1, h2, h3⟩ := hcl c' m hx
      refine ⟨h1, ?_, ?_⟩
      · intro hpre
        refine h2 ?_
        intro e he
        exact hpre e (List.mem_append_left _ he)
      · intro e he hee
        rcases List.mem_append.1 he with he | he
        · exact h3 e he hee
        · exfalso
          have heq : e = ([c], sfin) := by simpa using he
          rw [heq] at hee
          simp only at hee
          have : c = c' := by
            injection hee
          exact hne (this ▸ rfl)

/-- The invariant holds for the freshly expanded root before the first
iteration's descent. -/
theorem c7_expand_first (shuf : List C → List C) (g : Game S C P) (s₀ : S)
    {L : List C} (hL : effectiveChoices shuf g s₀ = L) (hndL : L.Nodup) (pl : P) :
    C7Inv g L (expand shuf g s₀ (MonteCarloTreeNode.new pl none)).1 [] := by
  have hch := expand_children_root_empty shuf g s₀ (MonteCarloTreeNode.new pl none)
    rfl rfl (by rw [hL]; exact hndL)
  rw [hL] at hch
  refine ⟨?_, ?_, ?_, by simp, by simp, ?_⟩
  · rw [expand_choice]
    rfl
  · rw [expand_games]
    simp
  · rw [hch, List.map_map]
    have hcomp : (Prod.fst ∘ fun c =>
        (c, MonteCarloTreeNode.new (g.get_active_player_id s₀) (some c))) =
        (id : C → C) := by
      funext c
      rfl
    rw [hcomp, List.map_id]
  · intro c m hmem
    rw [hch] at hmem
    obtain ⟨c₀, hc₀, heq⟩ := List.mem_map.1 hmem
    rw [Prod.mk.injEq] at heq
    obtain ⟨hc₀c, hm⟩ := heq
    subst hc₀c
    refine ⟨by rw [← hm]; rfl, ?_, ?_⟩
    · intro _
      rw [← hm]
      exact ⟨rfl, rfl⟩
    · intro e he
      cases he

/-- On later iterations the root is already fully expanded: expansion is a
no-op and the invariant transfers. -/
theorem c7_noop_inv (shuf : List C → List C) (g : Game S C P) (s₀ : S)
    {L : List C} {node : MonteCarloTreeNode C P} {entries : List (List C × S)}
    (hinv : C7Inv g L node entries) (hLne : L ≠ []) :
    C7Inv g L (expand shuf g s₀ node).1 entries := by
  have hroot : node.is_root = true := by
    unfold MonteCarloTreeNode.is_root
    rw [hinv.1]
    rfl
  have hchne : node.children ≠ [] := by
    intro h
    apply hLne
    rw [← hinv.2.2.1, h]
    rfl
  rw [expand_noop shuf g s₀ node hroot hchne]
  exact hinv

/-- One full iteration of the exhausting phase. -/
theorem c7_iteration (shuf : List C → List C) (g : Game S C P) (s₀ : S) (L : List C)
    (hndL : L.Nodup)
    (hterm : g.is_terminal s₀ = false)
    (hav : ∀ c, g.choice_is_available s₀ c = true)
    (hrew : ∀ (s' : S) (p' : P), g.reward_for s' p' +
      0.4 * Real.sqrt (Real.log ((L.length - 1 : ℕ) : ℝ)) < f64MAX) :
    ∀ (fuel : ℕ) (node : MonteCarloTreeNode C P) (entries : List (List C × S))
      (node1 : MonteCarloTreeNode C P) (sfin : S) (p : List C),
      C7Inv g L (expand shuf g s₀ node).1 entries →
      entries.length < L.length →
      iteration shuf g fuel node s₀ = some (node1, sfin, p) →
      ∃ c, p = [c] ∧ C7Inv g L node1 (entries ++ [([c], sfin)]) := by
  intro fuel node entries node1 sfin p hinv hlen hit
  cases fuel with
  | zero => simp [iteration] at hit
  | succ fuel =>
    rw [iteration] at hit
    simp only [hterm, Bool.false_eq_true, if_false] at hit
    split at hit
    next => cases hit
    next c hsel =>
      split at hit
      next => cases hit
      next child hlook =>
        obtain ⟨hg0, hcr0, hcL, hun⟩ :=
          c7_select_unused hndL hav hrew hinv hlen hsel hlook
        split at hit
        case isTrue hgz =>
          split at hit
          next => cases hit
          next sfin0 hroll =>
            rw [Option.some.injEq, Prod.mk.injEq, Prod.mk.injEq] at hit
            obtain ⟨h1, h2, h3⟩ := hit
            subst h1 h2 h3
            exact ⟨c, rfl, c7_rebuild _ hndL hinv hlook hg0 hcr0 hun⟩
        case isFalse hgz => exact absurd hg0 hgz

/-- The exhausting-phase loop invariant carried over the remaining
iterations. -/
theorem c7_loop (fuel : ℕ) (shuf : List C → List C) (g : Game S C P) (s₀ : S)
    (L : List C) (hndL : L.Nodup)
    (hterm : g.is_terminal s₀ = false)
    (hav : ∀ c, g.choice_is_available s₀ c = true)
    (hdet : g.get_determinization s₀ (g.get_active_player_id s₀) = s₀)
    (hrew : ∀ (s' : S) (p' : P), g.reward_for s' p' +
      0.4 * Real.sqrt (Real.log ((L.length - 1 : ℕ) : ℝ)) < f64MAX) :
    ∀ (r : ℕ) (node : MonteCarloTreeNode C P) (log : List (List C × S)),
      C7Inv g L node log → log.length + r = L.length →
      ∀ (t : MonteCarloTreeNode C P) (log' : List (List C × S)),
        build_tree_loop fuel shuf g s₀ r node log = some (t, log') →
        C7Inv g L t log' ∧ log'.length = L.length := by
  intro r
  induction r with
  | zero =>
    intro node log hinv hlen t log' h
    rw [build_tree_loop, Option.some.injEq, Prod.mk.injEq] at h
    obtain ⟨h1, h2⟩ := h
    subst h1 h2
    exact ⟨hinv, by omega⟩
  | succ r ihr =>
    intro node log hinv hlen t log' h
    rw [build_tree_loop, hdet] at h
    split at h
    next => cases h
    next node1 sfin p hit =>
      have hLne : L ≠ [] := by
        intro hnil
        rw [hnil] at hlen
        simp at hlen
      have hinv1 := c7_noop_inv shuf g s₀ hinv hLne
      obtain ⟨c, hp, hinv2⟩ := c7_iteration shuf g s₀ L hndL hterm hav hrew fuel node log
        node1 sfin p hinv1 (by omega) hit
      subst hp
      refine ihr node1 (log ++ [([c], sfin)]) hinv2 ?_ t log' h
      rw [List.length_append]
      simp only [List.length_singleton]
      omega

/-- Claim C7, amended: a deterministic process with all root actions
available and all selection values kept below the first-play sentinel by
the reward bound explores each root action exactly once in a budget of
exactly `k = #actions` iterations: the completed tree's root children are
exactly the actions, each with one visit and the reward of its single
logged rollout. -/
theorem claim7_amended (fuel : ℕ) (shuf : List C → List C) (g : Game S C P) (s₀ : S)
    (t : MonteCarloTreeNode C P) (log : List (List C × S))
    (hdet : g.get_determinization s₀ (g.get_active_player_id s₀) = s₀)
    (hav : ∀ c, g.choice_is_available s₀ c = true)
    (hterm : g.is_terminal s₀ = false)
    (hnd : (effectiveChoices shuf g s₀).Nodup)
    (hrew : ∀ (s' : S) (p' : P), g.reward_for s' p' +
      0.4 * Real.sqrt
        (Real.log ((((effectiveChoices shuf g s₀).length - 1 : ℕ)) : ℝ)) < f64MAX)
    (hrun : build_tree fuel shuf g s₀ (effectiveChoices shuf g s₀).length =
      some (t, log)) :
    t.children.map Prod.fst = effectiveChoices shuf g s₀ ∧
    ∀ c m, (c, m) ∈ t.children → m.games = 1 ∧
      ∃ e ∈ log, e.1 = [c] ∧ m.cumulative_reward = g.reward_for e.2 m.player_id := by
  unfold build_tree at hrun
  cases hn : (effectiveChoices shuf g s₀).length with
  | zero =>
    rw [hn, build_tree_loop, Option.some.injEq, Prod.mk.injEq] at hrun
    obtain ⟨h1, h2⟩ := hrun
    subst h1 h2
    constructor
    · rw [List.length_eq_zero.1 hn]
      rfl
    · intro c m hmem
      cases hmem
  | succ n' =>
    rw [hn, build_tree_loop, hdet] at hrun
    split at hrun
    next => cases hrun
    next node1 sfin p hit =>
      have hinv0 := c7_expand_first shuf g s₀ rfl hnd (g.get_active_player_id s₀)
      obtain ⟨c, hp, hinv1⟩ := c7_iteration shuf g s₀ (effectiveChoices shuf g s₀) hnd
        hterm hav hrew fuel (MonteCarloTreeNode.new (g.get_active_player_id s₀) none)
        [] node1 sfin p hinv0 (by simp only [List.length_nil]; omega) hit
      subst hp
      obtain ⟨hinvt, hlent⟩ := c7_loop fuel shuf g s₀ (effectiveChoices shuf g s₀) hnd
        hterm hav hdet hrew n' node1 [([c], sfin)] hinv1 (by simp; omega) t log hrun
      have hmap := hinvt.2.2.1
      have hcl := hinvt.2.2.2.2.2
      refine ⟨hmap, ?_⟩
      intro c' m hmem
      have hc'L : c' ∈ effectiveChoices shuf g s₀ := by
        rw [← hmap]
        exact List.mem_map.2 ⟨(c', m), hmem, rfl⟩
      obtain ⟨e, he, hee⟩ := c7_all_used hnd hinvt hlent c' hc'L
      obtain ⟨hg1, hcr1⟩ := (hcl c' m hmem).2.2 e he hee
      exact ⟨hg1, e, he, hee, hcr1⟩

theorem claim7_amended_witness :
    (MonteCarloTreeNode.mk (1 : ℝ) 1 (0 : ℕ) none
      [((0 : ℕ), MonteCarloTreeNode.mk 1 1 0 (some 0) [] [])]
      [(0, 0)]).children.map Prod.fst = effectiveChoices id gOne 0 ∧
    ∀ c m, (c, m) ∈ (MonteCarloTreeNode.mk (1 : ℝ) 1 (0 : ℕ) none
      [((0 : ℕ), MonteCarloTreeNode.mk 1 1 0 (some 0) [] [])] [(0, 0)]).children →
      m.games = 1 ∧ ∃ e ∈ [([(0 : ℕ)], (1 : ℕ))], e.1 = [c] ∧
        m.cumulative_reward = gOne.reward_for e.2 m.player_id := by
  refine claim7_amended 2 id gOne 0 _ _ rfl (fun c => rfl) rfl
    (by simp [effectiveChoices, gOne]) ?_ gOne_run
  intro s' p'
  have h0 : (((effectiveChoices id gOne 0).length - 1 : ℕ) : ℝ) = 0 := by
    simp [effectiveChoices, gOne]
  rw [h0, Real.log_zero, Real.sqrt_zero, mul_zero, add_zero]
  show (1 : ℝ) < f64MAX
  unfold f64MAX
  norm_num

end ExhaustiveClaims
